import Mathlib

/-!
Verification development for the product-to-page media matcher
(src/merge-product-media.ts).

The TypeScript source is shallowly embedded below.  Strings are modelled as
Lean String values (a structure around List Char); the character-level string
operations the script uses (trim, replaceAll, replace, split, includes,
endsWith, toLowerCase) are defined on List Char mirroring their JavaScript
semantics on ASCII data.  The WHATWG URL parser used via new URL(...) is
modelled by parseURL / serializeURL for the fragment of URL syntax this
script exercises: scheme://host/path?query#fragment with a required
authority, lowercasing of scheme and host, tab/newline stripping, default
path "/", backslash-as-slash in the path, and percent-encoding of the
whitespace characters that can survive trimming.  Out-of-model URL features
(ports defaulting, punycode, dot-segment removal, non-special schemes,
non-ASCII escaping) are not exercised by any input considered here; strings
the model fails to parse are treated exactly like parse failures in the
source (literal fallback).
-/

namespace MergeProductMedia

/-! ## Character classes and basic string operations -/

/-- The whitespace characters of JavaScript trim / regex whitespace,
restricted to ASCII. -/
def isJsWs (c : Char) : Bool :=
  c == ' ' || c == '\t' || c == '\n' || c == '\r' || c == '\x0B' || c == '\x0C'

/-- JavaScript String.prototype.trim on ASCII data. -/
def trimL (l : List Char) : List Char :=
  ((l.dropWhile isJsWs).reverse.dropWhile isJsWs).reverse

def jsTrim (s : String) : String := ⟨trimL s.data⟩

/-- JavaScript replaceAll of the two-character pattern backslash-slash by a
slash: scan left to right, a replacement is not rescanned. -/
def unescapeSlashes : List Char → List Char
  | '\\' :: '/' :: rest => '/' :: unescapeSlashes rest
  | c :: rest => c :: unescapeSlashes rest
  | [] => []

/-- JavaScript String.prototype.replace with a string pattern: replace the
first occurrence only; the pattern is assumed non-empty. -/
def replaceFirstL (pat rep : List Char) : List Char → List Char
  | [] => []
  | c :: cs =>
    if pat.isPrefixOf (c :: cs) then rep ++ (c :: cs).drop pat.length
    else c :: replaceFirstL pat rep cs

def replaceFirst (s pat rep : String) : String :=
  ⟨replaceFirstL pat.data rep.data s.data⟩

/-- JavaScript String.prototype.includes. -/
def containsSub (pat l : List Char) : Bool :=
  l.tails.any (fun t => pat.isPrefixOf t)

def containsSubS (pat s : String) : Bool := containsSub pat.data s.data

/-- JavaScript String.prototype.endsWith. -/
def endsWithS (pat s : String) : Bool := pat.data.isSuffixOf s.data

/-- ASCII lowercasing, the fragment of toLowerCase this data exercises. -/
def lowerChar (c : Char) : Char :=
  if 'A' ≤ c && c ≤ 'Z' then Char.ofNat (c.toNat + 32) else c

def lowerS (s : String) : String := ⟨s.data.map lowerChar⟩

/-- Split at every character satisfying p.  Compared to splitting on maximal
runs (as a regex class-plus does) this inserts extra empty fragments between
adjacent separator characters; every caller in the source filters empty
fragments out afterwards, so the composed results coincide. -/
def splitRuns (p : Char → Bool) : List Char → List (List Char)
  | [] => [[]]
  | c :: cs =>
    let r := splitRuns p cs
    if p c then [] :: r
    else
      match r with
      | f :: rest => (c :: f) :: rest
      | [] => [[c]]

/-! ## The URL model -/

def isTabOrNewline (c : Char) : Bool := c == '\t' || c == '\n' || c == '\r'

/-- The WHATWG parser removes all ASCII tabs and newlines from its input. -/
def stripTN (l : List Char) : List Char := l.filter (fun c => !isTabOrNewline c)

def isAsciiAlpha (c : Char) : Bool :=
  ('a' ≤ c && c ≤ 'z') || ('A' ≤ c && c ≤ 'Z')

def isAsciiDigit (c : Char) : Bool := '0' ≤ c && c ≤ '9'

def isSchemeChar (c : Char) : Bool :=
  isAsciiAlpha c || isAsciiDigit c || c == '+' || c == '-' || c == '.'

structure URLRec where
  scheme : List Char
  host : List Char
  path : List Char
  query : Option (List Char)
  frag : Option (List Char)
deriving DecidableEq, Repr

/-- The remainder after the first matched delimiter, if any: used for the
fragment after the first number sign and the query after the first
question mark. -/
def optTail : List Char → Option (List Char)
  | _ :: f => some f
  | [] => none

/-- Final parsing stage: host up to the first slash or backslash (must be
non-empty), path from there with backslashes read as slashes and an empty
path defaulting to the root; scheme and host are lowercased. -/
def parseHostPath (pre hp : List Char) (query frag : Option (List Char)) :
    Option URLRec :=
  match hp.takeWhile (fun c => c ≠ '/' && c ≠ '\\') with
  | [] => none
  | _ :: _ =>
    some { scheme := pre.map lowerChar
           host := (hp.takeWhile (fun c => c ≠ '/' && c ≠ '\\')).map lowerChar
           path :=
             match hp.dropWhile (fun c => c ≠ '/' && c ≠ '\\') with
             | [] => ['/']
             | pr => pr.map (fun c => if c = '\\' then '/' else c)
           query := query
           frag := frag }

/-- Scheme validation, then split the part after the authority marker at
the first number sign (fragment) and, before it, at the first question
mark (query). -/
def parseAuthority (pre r2 : List Char) : Option URLRec :=
  match pre with
  | [] => none
  | c0 :: _ =>
    if isAsciiAlpha c0 && pre.all isSchemeChar then
      parseHostPath pre
        ((r2.takeWhile (fun c => c ≠ '#')).takeWhile (fun c => c ≠ '?'))
        (optTail ((r2.takeWhile (fun c => c ≠ '#')).dropWhile (fun c => c ≠ '?')))
        (optTail (r2.dropWhile (fun c => c ≠ '#')))
    else none

/-- Model of new URL(s) for scheme://host/... inputs: strip tabs/newlines,
split the scheme at the first colon and require the // authority marker,
then hand over to the later stages. -/
def parseURL (s : List Char) : Option URLRec :=
  match (stripTN s).dropWhile (fun c => c ≠ ':') with
  | ':' :: '/' :: '/' :: r2 =>
    parseAuthority ((stripTN s).takeWhile (fun c => c ≠ ':')) r2
  | _ => none

/-- Percent-encoding of the whitespace characters that can occur inside a
parsed path or query (tabs and newlines were stripped, left and right ends
were trimmed, so only space and the two vertical-space characters remain). -/
def encPQ : List Char → List Char
  | [] => []
  | c :: cs =>
    (if c = ' ' then ['%', '2', '0']
     else if c = '\x0B' then ['%', '0', 'B']
     else if c = '\x0C' then ['%', '0', 'C']
     else [c]) ++ encPQ cs

/-- Model of the URL serializer. -/
def serializeURL (u : URLRec) : List Char :=
  u.scheme ++ ':' :: '/' :: '/' :: u.host ++ encPQ u.path ++
    (match u.query with
     | some q => '?' :: encPQ q
     | none => []) ++
    (match u.frag with
     | some f => '#' :: encPQ f
     | none => [])

/-! ## normalizeUrlish / normalizeForMatch (src lines 31-55) -/

/-- trim then replaceAll of escaped slashes, the preprocessing of
normalizeUrlish. -/
def cleanse (l : List Char) : List Char := unescapeSlashes (trimL l)

/-- normalizeUrlish: trim, unescape slashes, then if the string parses as a
URL drop its fragment and reserialize, otherwise return it as is. -/
def normalizeUrlish (s : String) : String :=
  let c := cleanse s.data
  match parseURL c with
  | some u => ⟨serializeURL { u with frag := none }⟩
  | none => ⟨c⟩

structure MatchForms where
  full : String
  noQuery : String
deriving DecidableEq, Repr

/-- normalizeForMatch: normalize, then reparse to additionally produce the
query-free form; on parse failure both forms are the normalized string. -/
def normalizeForMatch (s : String) : MatchForms :=
  let n := normalizeUrlish s
  match parseURL n.data with
  | some u =>
    { full := ⟨serializeURL u⟩
      noQuery := ⟨serializeURL { u with query := none }⟩ }
  | none => { full := n, noQuery := n }

/-! ## splitOldUrls (src lines 57-62)

The source splits on the regular expression
(whitespace-run, separator-run, whitespace-run) alternated with
(two or more whitespace characters), globally, then trims each fragment and
drops falsy ones.  matchSepRun models one match of the first alternative at
the head of the list with JavaScript backtracking semantics: the greedy
leading whitespace-star backs off to the longest prefix of the whitespace
run at whose end a separator character (newline, comma or semicolon)
stands, then the separator-plus and the trailing whitespace-star are
greedy. -/

def isSepChar (c : Char) : Bool := c == '\n' || c == ',' || c == ';'

/-- Length of the match of the first alternative at the head of l, if any. -/
def matchSepRun (l : List Char) : Option Nat :=
  let wlen := (l.takeWhile isJsWs).length
  match ((List.range (wlen + 1)).reverse).find?
      (fun j =>
        match l.get? j with
        | some c => isSepChar c
        | none => false) with
  | none => none
  | some j =>
    let rest := l.drop j
    let sep := (rest.takeWhile isSepChar).length
    let ws2 := ((rest.drop sep).takeWhile isJsWs).length
    some (j + sep + ws2)

/-- Length of the match of the second alternative (two or more whitespace
characters) at the head of l, if any. -/
def matchWsRun (l : List Char) : Option Nat :=
  let w := (l.takeWhile isJsWs).length
  if 2 ≤ w then some w else none

/-- The split scan: walk the string, at each position try the first
alternative then the second, cut the string there, otherwise advance one
character.  Fuel bounds the recursion; it starts at the string length and
every step consumes at least one character, so the zero-fuel branch with a
non-empty remainder is unreachable. -/
def splitScan : Nat → List Char → List Char → List (List Char)
  | _, [], cur => [cur.reverse]
  | 0, l, cur => [cur.reverse ++ l]
  | fuel + 1, c :: cs, cur =>
    match matchSepRun (c :: cs) with
    | some n => cur.reverse :: splitScan fuel (cs.drop (n - 1)) []
    | none =>
      match matchWsRun (c :: cs) with
      | some n => cur.reverse :: splitScan fuel (cs.drop (n - 1)) []
      | none => splitScan fuel cs (c :: cur)

/-- splitOldUrls: split on the separator regex, trim each piece, drop empty
pieces. -/
def splitOldUrls (s : String) : List String :=
  (((splitScan s.data.length s.data []).map (fun l => (⟨trimL l⟩ : String))).filter
    (fun r => r ≠ ""))

/-! ## pathTail and tokenizeSlug (src lines 64-99) -/

/-- Non-empty fragments of l split at the slashes, JavaScript
split('/').filter(Boolean). -/
def slashParts (l : List Char) : List (List Char) :=
  (splitRuns (fun c => c == '/') l).filter (fun f => f ≠ [])

/-- pathTail: last non-empty path segment of the parsed URL, or of the raw
string if it does not parse. -/
def pathTail (s : String) : Option String :=
  match parseURL s.data with
  | some u => (slashParts u.path).getLast?.map (fun l => (⟨l⟩ : String))
  | none => (slashParts s.data).getLast?.map (fun l => (⟨l⟩ : String))

def stopWords : List String :=
  ["golf", "of", "the", "and", "tour", "tours", "short", "break", "links",
   "experience", "test"]

def isLowerAlnum (c : Char) : Bool :=
  ('a' ≤ c && c ≤ 'z') || ('0' ≤ c && c ≤ '9')

/-- tokenizeSlug: trim, strip leading and trailing slashes, take the last
non-empty path segment, lowercase it, split on runs of characters outside
lowercase-alphanumeric, trim the fragments, drop empty ones, then keep
tokens of length at least three that are not stop words. -/
def tokenizeSlug (slug : String) : List String :=
  let cleaned := ((trimL slug.data).dropWhile (fun c => c == '/')).reverse
    |>.dropWhile (fun c => c == '/') |>.reverse
  let lastSeg := (slashParts cleaned).getLast?.getD []
  let tokens :=
    ((splitRuns (fun c => !isLowerAlnum c) (lastSeg.map lowerChar)).map trimL).filter
      (fun t => t ≠ [])
  (tokens.map (fun l => (⟨l⟩ : String))).filter
    (fun t => 3 ≤ t.length && !stopWords.contains t)

/-! ## Pages, scoring and tier logic (src lines 101-180) -/

structure PageMedia where
  link : String
  images : List String
  mapIframe : Option String
deriving DecidableEq, Repr

/-- scorePageForTokens: +3 when the lowercased link contains the preferred
language segment, +2 per token occurring in the lowercased link. -/
def scorePageForTokens (pageLink : String) (tokens : List String)
    (preferLang : String) : Nat :=
  let linkLower := lowerS pageLink
  let base := if containsSubS ("/" ++ preferLang ++ "/") linkLower then 3 else 0
  tokens.foldl
    (fun score token =>
      if containsSubS token linkLower then score + 2 else score)
    base

/-- bestTokenMatch: highest strictly improving score wins (ties keep the
earlier page), and the best score must reach 2 for a match. -/
def bestTokenMatch (pages : List PageMedia) (tokens : List String)
    (preferLang : String) : Option PageMedia :=
  if tokens.isEmpty then none
  else
    let r := pages.foldl
      (fun (acc : Option PageMedia × Nat) p =>
        let score := scorePageForTokens p.link tokens preferLang
        if acc.2 < score then (some p, score) else acc)
      (none, 0)
    if 2 ≤ r.2 then r.1 else none

/-- First element of minimal link length.  The source sorts a copy with the
comparator on link lengths (a stable sort) and takes the head; that head is
exactly the first element whose link length is minimal, which this fold
computes. -/
def selectShortest : List PageMedia → Option PageMedia
  | [] => none
  | c :: cs =>
    some (cs.foldl (fun best p => if p.link.length < best.link.length then p else best) c)

/-- preferBestMatch: restrict to pages whose link contains the preferred
language segment when any exist, then pick the shortest link. -/
def preferBestMatch (candidates : List PageMedia) (preferLang : String) :
    Option PageMedia :=
  let byLang := candidates.filter
    (fun c => containsSubS ("/" ++ preferLang ++ "/") c.link)
  let pool := if byLang.isEmpty then candidates else byLang
  selectShortest pool

/-- Appends s unless already present: one Set.add step, preserving insertion
order. -/
def addUnique (l : List String) (s : String) : List String :=
  if l.contains s then l else l ++ [s]

/-- deriveCandidatesFromOldUrl: the full and no-query normalized forms, then
for each of the two, first-occurrence rewrites of /nl/golfreis/ to /nl/, of
/en/golfreis/ to /en/, and of /golfreis/ to /, all collected into an
insertion-ordered set. -/
def deriveCandidatesFromOldUrl (oldUrl : String) : List String :=
  let f := normalizeForMatch oldUrl
  let base := addUnique (addUnique [] f.full) f.noQuery
  [f.full, f.noQuery].foldl
    (fun out u =>
      addUnique
        (addUnique
          (addUnique out (replaceFirst u "/nl/golfreis/" "/nl/"))
          (replaceFirst u "/en/golfreis/" "/en/"))
        (replaceFirst u "/golfreis/" "/"))
    base

/-! ## JSON records and the main run (src lines 183-253)

Product records are arbitrary JSON objects; they are modelled as ordered
association lists of field name and JSON value.  JSON values are modelled
by strings, arrays, and an opaque constructor carrying an identity tag that
stands for every other JSON value (numbers, booleans, null, objects): the
matcher never inspects those, it only copies them through.  The only array
operation the script performs is filtering an array for its string
elements, so array elements are modelled as either a string or an opaque
non-string value. -/

inductive JAtom where
  | astr : String → JAtom
  | aopaque : String → JAtom
deriving DecidableEq, Repr

inductive JVal where
  | jstr : String → JVal
  | jarr : List JAtom → JVal
  | jopaque : String → JVal
deriving DecidableEq, Repr

abbrev ProductRec := List (String × JVal)

/-- JavaScript property read (objects after JSON.parse have unique keys;
on a duplicated key this reads the first binding and the claims below do
not depend on that case). -/
def getField (p : ProductRec) (k : String) : Option JVal :=
  (p.find? (fun kv => kv.1 == k)).map (fun kv => kv.2)

/-- JavaScript property write: replace the value in place when the key
exists, otherwise append the new property. -/
def setField : ProductRec → String → JVal → ProductRec
  | [], k, v => [(k, v)]
  | (k', v') :: rest, k, v =>
    if k' == k then (k, v) :: rest else (k', v') :: setField rest k v

/-- The pages pipeline: keep elements whose link is a string and whose
images is an array, keep only the string images, normalize the link, keep a
string mapIframe. -/
def pageOfJson (raw : ProductRec) : Option PageMedia :=
  match getField raw "link", getField raw "images" with
  | some (.jstr l), some (.jarr xs) =>
    some { link := normalizeUrlish l
           images := xs.filterMap
             (fun v => match v with | .astr s => some s | _ => none)
           mapIframe :=
             match getField raw "mapIframe" with
             | some (.jstr m) => some m
             | _ => none }
  | _, _ => none

def buildPages (rawPages : List ProductRec) : List PageMedia :=
  rawPages.filterMap pageOfJson

/-- One Map.set step: update the value at an existing key, else append. -/
def mapSet (m : List (String × PageMedia)) (k : String) (v : PageMedia) :
    List (String × PageMedia) :=
  if m.any (fun kv => kv.1 == k) then
    m.map (fun kv => if kv.1 == k then (k, v) else kv)
  else m ++ [(k, v)]

def mapGet (m : List (String × PageMedia)) (k : String) : Option PageMedia :=
  (m.find? (fun kv => kv.1 == k)).map (fun kv => kv.2)

/-- byExact: every page is indexed under its full and its no-query form. -/
def buildByExact (pages : List PageMedia) : List (String × PageMedia) :=
  pages.foldl
    (fun m p =>
      let f := normalizeForMatch p.link
      mapSet (mapSet m f.full p) f.noQuery p)
    []

def firstSome {α β : Type} (f : α → Option β) : List α → Option β
  | [] => none
  | a :: rest =>
    match f a with
    | some b => some b
    | none => firstSome f rest

/-- Tier 1: first exact-index hit over the derived candidates of the legacy
URLs, in order. -/
def tier1 (byExact : List (String × PageMedia)) (oldUrls : List String) :
    Option PageMedia :=
  firstSome
    (fun oldUrl => firstSome (fun cand => mapGet byExact cand)
      (deriveCandidatesFromOldUrl oldUrl))
    oldUrls

/-- Pages whose link contains /tail/ or ends with /tail. -/
def tailHits (pages : List PageMedia) (t : String) : List PageMedia :=
  pages.filter
    (fun p => containsSubS ("/" ++ t ++ "/") p.link ||
      endsWithS ("/" ++ t) p.link)

/-- Candidates of the first tail that hits anything; later tails are not
scanned once a tail has hits. -/
def tier2Candidates (pages : List PageMedia) : List String → List PageMedia
  | [] => []
  | t :: ts =>
    let h := tailHits pages t
    if h.isEmpty then tier2Candidates pages ts else h

/-- Insertion-ordered de-duplication, the spread of a Set. -/
def dedupKeepFirst (l : List String) : List String := l.foldl addUnique []

/-- Tier 2: tails of the legacy URLs, de-duplicated; candidates of the first
hitting tail; preferBestMatch with Dutch preference. -/
def tier2 (pages : List PageMedia) (oldUrls : List String) : Option PageMedia :=
  let tails := oldUrls.filterMap pathTail
  let c := tier2Candidates pages (dedupKeepFirst tails)
  if c.isEmpty then none else preferBestMatch c "nl"

/-- The full matching cascade for one product, from its raw old_urls text
and slug. -/
def matchProduct (byExact : List (String × PageMedia)) (pages : List PageMedia)
    (oldUrlsRaw slug : String) : Option PageMedia :=
  let oldUrls := if oldUrlsRaw == "" then [] else splitOldUrls oldUrlsRaw
  match tier1 byExact oldUrls with
  | some p => some p
  | none =>
    match tier2 pages oldUrls with
    | some p => some p
    | none =>
      if slug == "" then none
      else
        match bestTokenMatch pages (tokenizeSlug slug) "nl" with
        | some p => some p
        | none => bestTokenMatch pages (tokenizeSlug slug) "en"

/-- old_urls as the source reads it: the string value, or empty when absent
or not a string. -/
def oldUrlsRawOf (product : ProductRec) : String :=
  match getField product "old_urls" with
  | some (.jstr s) => s
  | _ => ""

def slugOf (product : ProductRec) : String :=
  match getField product "slug" with
  | some (.jstr s) => s
  | _ => ""

/-- The enriched output record for one processed product: images always
set; mapIframe set only when the matched page has a truthy (non-empty)
one. -/
def enrichOne (byExact : List (String × PageMedia)) (pages : List PageMedia)
    (product : ProductRec) : ProductRec :=
  match matchProduct byExact pages (oldUrlsRawOf product) (slugOf product) with
  | some pm =>
    let o1 := setField product "images" (.jarr (pm.images.map .astr))
    match pm.mapIframe with
    | some m => if m == "" then o1 else setField o1 "mapIframe" (.jstr m)
    | none => o1
  | none => setField product "images" (.jarr [])

structure RunState where
  enriched : List ProductRec
  matched : Nat
  unmatched : Nat
  diagnostics : List String
deriving DecidableEq, Repr

/-- One iteration of the main loop over a processed product. -/
def mainStep (byExact : List (String × PageMedia)) (pages : List PageMedia)
    (st : RunState) (product : ProductRec) : RunState :=
  let oldUrlsRaw := oldUrlsRawOf product
  match matchProduct byExact pages oldUrlsRaw (slugOf product) with
  | some _ =>
    { st with
      enriched := st.enriched ++ [enrichOne byExact pages product]
      matched := st.matched + 1 }
  | none =>
    { st with
      enriched := st.enriched ++ [enrichOne byExact pages product]
      unmatched := st.unmatched + 1
      diagnostics :=
        if oldUrlsRaw == "" then st.diagnostics
        else st.diagnostics ++ ["No media match for old_urls: " ++ oldUrlsRaw] }

/-- JavaScript Array.prototype.slice with one argument: a negative start
counts from the end. -/
def jsSliceFrom (l : List ProductRec) (i : Int) : List ProductRec :=
  if 0 ≤ i then l.drop i.toNat
  else l.drop (l.length - min l.length (-i).toNat)

/-- The main run after JSON decoding: build pages and the exact index, run
the loop over the first max(0, limit) products (all of them when no limit
is given), then when a limit below the product count was given append
products.slice(limit) unchanged.  The returned state carries the output
array, both counters, and the diagnostic lines written to stderr.  The
parsed --limit value is modelled as an integer; the source accepts any
finite number and Array.prototype.slice truncates fractional bounds, which
no claim here exercises. -/
def mainRun (products rawPages : List ProductRec) (limit : Option Int) :
    RunState :=
  let pages := buildPages rawPages
  let byExact := buildByExact pages
  let toProcess :=
    match limit with
    | some k => products.take (max 0 k).toNat
    | none => products
  let st := toProcess.foldl (mainStep byExact pages) ⟨[], 0, 0, []⟩
  match limit with
  | some k =>
    if k < (products.length : Int) then
      { st with enriched := st.enriched ++ jsSliceFrom products k }
    else st
  | none => st

/-! ## URL shape invariants (used by the round-trip proofs) -/

/-- The characters a host may contain: no path, query, fragment delimiters,
no backslash, no tabs or newlines. -/
def HostChar (c : Char) : Prop :=
  c ≠ '/' ∧ c ≠ '\\' ∧ c ≠ '?' ∧ c ≠ '#' ∧ isTabOrNewline c = false

/-- The characters a serialized path may contain. -/
def PathChar (c : Char) : Prop :=
  c ≠ '?' ∧ c ≠ '#' ∧ c ≠ '\\' ∧ isTabOrNewline c = false

/-- The characters a query may contain. -/
def QueryChar (c : Char) : Prop :=
  c ≠ '#' ∧ isTabOrNewline c = false

/-- Shape invariant of every record produced by parseURL. -/
structure URLInv (u : URLRec) : Prop where
  scheme_ne : u.scheme ≠ []
  scheme_head : ∀ c, u.scheme.head? = some c → isAsciiAlpha c = true
  scheme_chars : ∀ c ∈ u.scheme, isSchemeChar c = true
  scheme_lower : u.scheme.map lowerChar = u.scheme
  host_ne : u.host ≠ []
  host_chars : ∀ c ∈ u.host, HostChar c
  host_lower : u.host.map lowerChar = u.host
  path_head : u.path.head? = some '/'
  path_chars : ∀ c ∈ u.path, PathChar c
  query_chars : ∀ q, u.query = some q → ∀ c ∈ q, QueryChar c

/-- What reparsing a serialized record yields: the path and query become
percent-encoded; everything else is untouched. -/
def canonU (u : URLRec) : URLRec :=
  { u with path := encPQ u.path, query := u.query.map encPQ }

/-! ## Generic helper lemmas -/

theorem char_toNat_ofNat (n : Nat) (h : Nat.isValidChar n) :
    (Char.ofNat n).toNat = n := by
  simp [Char.ofNat, h, Char.toNat, Char.ofNatAux, BitVec.toNat_ofNatLt, UInt32.toNat]

theorem lowerChar_eq_self (c : Char) (h : ¬('A' ≤ c ∧ c ≤ 'Z')) :
    lowerChar c = c := by
  unfold lowerChar
  split
  · rename_i hb
    simp only [Bool.and_eq_true, decide_eq_true_eq] at hb
    exact absurd hb h
  · rfl

theorem lowerChar_of_upper (c : Char) (h1 : 'A' ≤ c) (h2 : c ≤ 'Z') :
    'a' ≤ lowerChar c ∧ lowerChar c ≤ 'z' := by
  have h1' : 65 ≤ c.toNat := h1
  have h2' : c.toNat ≤ 90 := h2
  have hv : Nat.isValidChar (c.toNat + 32) := Or.inl (by omega)
  have ht : (Char.ofNat (c.toNat + 32)).toNat = c.toNat + 32 := char_toNat_ofNat _ hv
  unfold lowerChar
  rw [if_pos (by simp only [Bool.and_eq_true, decide_eq_true_eq]; exact ⟨h1, h2⟩)]
  constructor
  · show (97 : Nat) ≤ (Char.ofNat (c.toNat + 32)).toNat
    omega
  · show (Char.ofNat (c.toNat + 32)).toNat ≤ 122
    omega

theorem lowerChar_cases (c : Char) :
    lowerChar c = c ∨ ('a' ≤ lowerChar c ∧ lowerChar c ≤ 'z') := by
  by_cases h : 'A' ≤ c ∧ c ≤ 'Z'
  · exact Or.inr (lowerChar_of_upper c h.1 h.2)
  · exact Or.inl (lowerChar_eq_self c h)

theorem lowerChar_idem (c : Char) : lowerChar (lowerChar c) = lowerChar c := by
  rcases lowerChar_cases c with h | h
  · rw [h]
    rcases lowerChar_cases c with h2 | h2
    · exact h2
    · rw [h] at h2
      exact lowerChar_eq_self c (by
        intro hc
        have := lowerChar_of_upper c hc.1 hc.2
        rw [h] at this
        have ha : (97 : Nat) ≤ c.toNat := this.1
        have hb : c.toNat ≤ (90 : Nat) := hc.2
        omega)
  · apply lowerChar_eq_self
    intro hc
    have ha : (97 : Nat) ≤ (lowerChar c).toNat := h.1
    have hb : (lowerChar c).toNat ≤ (90 : Nat) := hc.2
    omega

/-- Lowercasing never produces a character outside the lowercase letters
other than the character itself. -/
theorem lowerChar_ne (c d : Char) (hd : d.toNat < 97 ∨ 122 < d.toNat)
    (h : c ≠ d) : lowerChar c ≠ d := by
  rcases lowerChar_cases c with hc | hc
  · rw [hc]; exact h
  · intro he
    have ha : (97 : Nat) ≤ (lowerChar c).toNat := hc.1
    have hb : (lowerChar c).toNat ≤ (122 : Nat) := hc.2
    rw [he] at ha hb
    omega

theorem isAsciiAlpha_lowerChar (c : Char) (h : isAsciiAlpha c = true) :
    isAsciiAlpha (lowerChar c) = true := by
  rcases lowerChar_cases c with hc | hc
  · rw [hc]; exact h
  · unfold isAsciiAlpha
    simp only [Bool.or_eq_true, Bool.and_eq_true, decide_eq_true_eq]
    exact Or.inl hc

theorem isSchemeChar_lowerChar (c : Char) (h : isSchemeChar c = true) :
    isSchemeChar (lowerChar c) = true := by
  rcases lowerChar_cases c with hc | hc
  · rw [hc]; exact h
  · unfold isSchemeChar isAsciiAlpha
    simp only [Bool.or_eq_true, Bool.and_eq_true, decide_eq_true_eq]
    exact Or.inl (Or.inl (Or.inl (Or.inl (Or.inl hc))))

theorem map_eq_self_of {α : Type} (f : α → α) (l : List α)
    (h : ∀ c ∈ l, f c = c) : l.map f = l := by
  induction l with
  | nil => rfl
  | cons c cs ih =>
    simp only [List.map_cons, List.cons.injEq]
    exact ⟨h c (by simp), ih (fun x hx => h x (by simp [hx]))⟩

theorem takeWhile_all {α : Type} (p : α → Bool) (l : List α)
    (h : ∀ c ∈ l, p c = true) : l.takeWhile p = l := by
  rw [List.takeWhile_eq_self_iff]
  exact h

theorem dropWhile_all {α : Type} (p : α → Bool) (l : List α)
    (h : ∀ c ∈ l, p c = true) : l.dropWhile p = [] := by
  induction l with
  | nil => rfl
  | cons c cs ih =>
    rw [List.dropWhile_cons, if_pos (h c (by simp))]
    exact ih (fun x hx => h x (by simp [hx]))

theorem takeWhile_append_cons {α : Type} (p : α → Bool) (a : List α) (b : α)
    (t : List α) (ha : ∀ c ∈ a, p c = true) (hb : p b = false) :
    (a ++ b :: t).takeWhile p = a := by
  induction a with
  | nil => simp [List.takeWhile_cons, hb]
  | cons c cs ih =>
    rw [List.cons_append, List.takeWhile_cons, if_pos (ha c (by simp))]
    rw [ih (fun x hx => ha x (by simp [hx]))]

theorem dropWhile_append_cons {α : Type} (p : α → Bool) (a : List α) (b : α)
    (t : List α) (ha : ∀ c ∈ a, p c = true) (hb : p b = false) :
    (a ++ b :: t).dropWhile p = b :: t := by
  induction a with
  | nil => simp [List.dropWhile_cons, hb]
  | cons c cs ih =>
    rw [List.cons_append, List.dropWhile_cons, if_pos (ha c (by simp))]
    exact ih (fun x hx => ha x (by simp [hx]))

/-- containsSub decides the contiguous-substring relation. -/
theorem containsSub_true_iff (pat l : List Char) :
    containsSub pat l = true ↔ pat <:+: l := by
  unfold containsSub
  rw [List.any_eq_true]
  constructor
  · rintro ⟨t, ht, hp⟩
    rw [List.mem_tails] at ht
    rw [List.isPrefixOf_iff_prefix] at hp
    exact List.infix_iff_prefix_suffix.mpr ⟨t, hp, ht⟩
  · intro h
    rcases List.infix_iff_prefix_suffix.mp h with ⟨t, hp, ht⟩
    exact ⟨t, (List.mem_tails _ _).mpr ht, List.isPrefixOf_iff_prefix.mpr hp⟩

theorem containsSub_false_mono (pat l m : List Char)
    (h : containsSub pat l = false) (hm : m <:+: l) :
    containsSub pat m = false := by
  by_contra hc
  have : containsSub pat m = true := by
    cases he : containsSub pat m
    · exact absurd he hc
    · rfl
  have : pat <:+: l := ((containsSub_true_iff pat m).mp this).trans hm
  rw [← containsSub_true_iff] at this
  rw [h] at this
  exact Bool.false_ne_true this

theorem containsSub_false_of_not_head (pat l : List Char) (c : Char)
    (hp : pat.head? = some c) (h : ∀ x ∈ l, x ≠ c) :
    containsSub pat l = false := by
  cases he : containsSub pat l
  · rfl
  · exfalso
    have hi := (containsSub_true_iff pat l).mp he
    cases pat with
    | nil => simp at hp
    | cons p ps =>
      have hpc : p = c := by simpa using hp
      subst hpc
      exact h p (hi.subset (by simp)) rfl

theorem unescape_cons (c : Char) (rest : List Char)
    (h : ∀ r, c = '\\' → rest = '/' :: r → False) :
    unescapeSlashes (c :: rest) = c :: unescapeSlashes rest := by
  rw [unescapeSlashes.eq_def]
  split
  · rename_i r heq
    injection heq with hc hrest
    exact (h r hc hrest).elim
  · rename_i c1 r1 heq
    rw [List.cons.injEq] at heq
    rw [heq.1, heq.2]
  · rename_i heq
    exact absurd heq (by simp)

theorem getLast?_cons_ne {α : Type} (a : α) (t : List α) (h : t ≠ []) :
    (a :: t).getLast? = t.getLast? := by
  cases t with
  | nil => exact absurd rfl h
  | cons b u => rw [List.getLast?_cons_cons]

theorem unescape_ne_nil (l : List Char) (h : l ≠ []) :
    unescapeSlashes l ≠ [] := by
  cases l with
  | nil => exact absurd rfl h
  | cons c rest =>
    by_cases hp : c = '\\' ∧ ∃ r, rest = '/' :: r
    · obtain ⟨hc, r, hr⟩ := hp
      subst hc; subst hr
      rw [unescapeSlashes]
      simp
    · rw [unescape_cons c rest (fun r h1 h2 => hp ⟨h1, r, h2⟩)]
      simp

theorem unescape_getLast (l : List Char) :
    (unescapeSlashes l).getLast? = l.getLast? := by
  induction l using unescapeSlashes.induct with
  | case1 rest ih =>
    rw [unescapeSlashes]
    cases rest with
    | nil => simp [unescapeSlashes]
    | cons c cs =>
      rw [getLast?_cons_ne '/' _ (unescape_ne_nil _ (by simp)), ih,
        List.getLast?_cons_cons, List.getLast?_cons_cons]
  | case2 c rest h ih =>
    rw [unescape_cons c rest h]
    cases rest with
    | nil => simp [unescapeSlashes]
    | cons c1 cs =>
      rw [getLast?_cons_ne c _ (unescape_ne_nil _ (by simp)), ih,
        getLast?_cons_ne c _ (by simp)]
  | case3 => rfl

theorem unescape_head_ws (l : List Char) (c : Char)
    (h : (unescapeSlashes l).head? = some c) :
    isJsWs c = false ∨ l.head? = some c := by
  cases l with
  | nil => simp [unescapeSlashes] at h
  | cons c0 rest =>
    by_cases hp : c0 = '\\' ∧ ∃ r, rest = '/' :: r
    · obtain ⟨hc0, r, hr⟩ := hp
      subst hc0
      subst hr
      rw [unescapeSlashes] at h
      simp only [List.head?_cons, Option.some.injEq] at h
      subst h
      left; rfl
    · rw [unescape_cons c0 rest (by
        intro r h1 h2
        exact hp ⟨h1, r, h2⟩)] at h
      simp only [List.head?_cons, Option.some.injEq] at h
      subst h
      right; rfl

theorem unescape_eq_self (l : List Char)
    (h : containsSub ['\\', '/'] l = false) : unescapeSlashes l = l := by
  induction l using unescapeSlashes.induct with
  | case1 rest ih =>
    exfalso
    have : containsSub ['\\', '/'] ('\\' :: '/' :: rest) = true := by
      rw [containsSub_true_iff]
      exact ⟨[], rest, by simp⟩
    rw [h] at this
    exact Bool.false_ne_true this
  | case2 c rest hg ih =>
    have hrest : containsSub ['\\', '/'] rest = false := by
      apply containsSub_false_mono _ _ _ h
      exact (List.suffix_cons c rest).isInfix
    rw [unescape_cons c rest hg, ih hrest]
  | case3 => rfl

theorem dropWhile_head_false {α : Type} (p : α → Bool) (l : List α) (c : α)
    (h : (l.dropWhile p).head? = some c) : p c = false := by
  have := List.head?_dropWhile_not p l
  rw [h] at this
  exact this

theorem suffix_getLast {α : Type} (s x : List α) (hs : s <:+ x)
    (hne : s ≠ []) : s.getLast? = x.getLast? := by
  obtain ⟨pre, rfl⟩ := hs
  rw [List.getLast?_append]
  obtain ⟨y, hy⟩ : ∃ y, s.getLast? = some y := by
    rw [← List.head?_reverse]
    cases hr : s.reverse with
    | nil => exact absurd (by simpa using congrArg List.reverse hr) hne
    | cons a t => exact ⟨a, rfl⟩
  rw [hy]
  rfl

theorem trimL_head (l : List Char) (c : Char)
    (h : (trimL l).head? = some c) : isJsWs c = false := by
  unfold trimL at h
  rw [List.head?_reverse] at h
  have hne : (l.dropWhile isJsWs).reverse.dropWhile isJsWs ≠ [] := by
    intro he
    rw [he] at h
    simp at h
  have hsuf := suffix_getLast _ _
    (List.dropWhile_suffix (l := (l.dropWhile isJsWs).reverse) isJsWs) hne
  rw [hsuf, List.getLast?_reverse] at h
  exact dropWhile_head_false isJsWs l c h

theorem trimL_getLast (l : List Char) (c : Char)
    (h : (trimL l).getLast? = some c) : isJsWs c = false := by
  unfold trimL at h
  rw [List.getLast?_reverse] at h
  exact dropWhile_head_false isJsWs (l.dropWhile isJsWs).reverse c h

theorem trimL_eq_self (l : List Char)
    (hh : ∀ c, l.head? = some c → isJsWs c = false)
    (hl : ∀ c, l.getLast? = some c → isJsWs c = false) : trimL l = l := by
  unfold trimL
  have h1 : l.dropWhile isJsWs = l := by
    cases l with
    | nil => rfl
    | cons c cs =>
      rw [List.dropWhile_cons, if_neg (by rw [hh c rfl]; simp)]
  rw [h1]
  have h2 : l.reverse.dropWhile isJsWs = l.reverse := by
    cases hr : l.reverse with
    | nil => rfl
    | cons c cs =>
      have hlast : l.getLast? = some c := by
        rw [← List.head?_reverse, hr]
        rfl
      rw [List.dropWhile_cons, if_neg (by rw [hl c hlast]; simp)]
  rw [h2, List.reverse_reverse]

/-! ## URL parsing invariants and the serialization round trip -/

theorem char_eq_of_toNat (c d : Char) (h : c.toNat = d.toNat) : c = d := by
  rw [← Char.ofNat_toNat c, h, Char.ofNat_toNat]

theorem char_ne_of_toNat (c d : Char) (n : Nat) (hd : d.toNat = n)
    (h : c.toNat ≠ n) : c ≠ d := by
  intro he
  rw [he] at h
  exact h hd

theorem notTN_of_ne (c : Char) (h1 : c ≠ '\t') (h2 : c ≠ '\n') (h3 : c ≠ '\r') :
    isTabOrNewline c = false := by
  unfold isTabOrNewline
  rw [beq_eq_false_iff_ne.mpr h1, beq_eq_false_iff_ne.mpr h2,
    beq_eq_false_iff_ne.mpr h3]
  rfl

theorem ne_of_notTN (c : Char) (h : isTabOrNewline c = false) :
    c ≠ '\t' ∧ c ≠ '\n' ∧ c ≠ '\r' := by
  unfold isTabOrNewline at h
  refine ⟨fun he => ?_, fun he => ?_, fun he => ?_⟩ <;> subst he <;> simp at h

theorem isSchemeChar_toNat (c : Char) (h : isSchemeChar c = true) :
    (97 ≤ c.toNat ∧ c.toNat ≤ 122) ∨ (65 ≤ c.toNat ∧ c.toNat ≤ 90) ∨
    (48 ≤ c.toNat ∧ c.toNat ≤ 57) ∨ c.toNat = 43 ∨ c.toNat = 45 ∨
    c.toNat = 46 := by
  unfold isSchemeChar isAsciiAlpha isAsciiDigit at h
  simp only [Bool.or_eq_true, Bool.and_eq_true, decide_eq_true_eq,
    beq_iff_eq] at h
  rcases h with ((((⟨h1, h2⟩ | ⟨h1, h2⟩) | ⟨h1, h2⟩) | h) | h) | h
  · exact Or.inl ⟨h1, h2⟩
  · exact Or.inr (Or.inl ⟨h1, h2⟩)
  · exact Or.inr (Or.inr (Or.inl ⟨h1, h2⟩))
  · subst h; exact Or.inr (Or.inr (Or.inr (Or.inl rfl)))
  · subst h; exact Or.inr (Or.inr (Or.inr (Or.inr (Or.inl rfl))))
  · subst h; exact Or.inr (Or.inr (Or.inr (Or.inr (Or.inr rfl))))

theorem isSchemeChar_not_special (c : Char) (h : isSchemeChar c = true) :
    c ≠ ':' ∧ c ≠ '/' ∧ c ≠ '\\' ∧ c ≠ '?' ∧ c ≠ '#' ∧
    isTabOrNewline c = false := by
  have hn := isSchemeChar_toNat c h
  refine ⟨char_ne_of_toNat c ':' 58 (by decide) (by omega),
    char_ne_of_toNat c '/' 47 (by decide) (by omega),
    char_ne_of_toNat c '\\' 92 (by decide) (by omega),
    char_ne_of_toNat c '?' 63 (by decide) (by omega),
    char_ne_of_toNat c '#' 35 (by decide) (by omega),
    notTN_of_ne c (char_ne_of_toNat c '\t' 9 (by decide) (by omega))
      (char_ne_of_toNat c '\n' 10 (by decide) (by omega))
      (char_ne_of_toNat c '\r' 13 (by decide) (by omega))⟩

theorem lowerChar_hostChar (c : Char) (h : HostChar c) :
    HostChar (lowerChar c) := by
  obtain ⟨h1, h2, h3, h4, h5⟩ := h
  rcases lowerChar_cases c with hc | hc
  · rw [hc]; exact ⟨h1, h2, h3, h4, h5⟩
  · have ha : (97 : Nat) ≤ (lowerChar c).toNat := hc.1
    have hb : (lowerChar c).toNat ≤ (122 : Nat) := hc.2
    refine ⟨char_ne_of_toNat _ '/' 47 (by decide) (by omega),
      char_ne_of_toNat _ '\\' 92 (by decide) (by omega),
      char_ne_of_toNat _ '?' 63 (by decide) (by omega),
      char_ne_of_toNat _ '#' 35 (by decide) (by omega),
      notTN_of_ne _ (char_ne_of_toNat _ '\t' 9 (by decide) (by omega))
        (char_ne_of_toNat _ '\n' 10 (by decide) (by omega))
        (char_ne_of_toNat _ '\r' 13 (by decide) (by omega))⟩

theorem mem_of_takeWhile {α : Type} (p : α → Bool) (l : List α) (x : α)
    (h : x ∈ l.takeWhile p) : x ∈ l :=
  (List.takeWhile_prefix p).subset h

theorem mem_of_dropWhile {α : Type} (p : α → Bool) (l : List α) (x : α)
    (h : x ∈ l.dropWhile p) : x ∈ l :=
  (List.dropWhile_suffix p).subset h

theorem map_lower_idem (l : List Char) :
    (l.map lowerChar).map lowerChar = l.map lowerChar := by
  rw [List.map_map]
  apply List.map_congr_left
  intro a _
  exact lowerChar_idem a

theorem stripTN_chars (s : List Char) (c : Char) (h : c ∈ stripTN s) :
    isTabOrNewline c = false := by
  unfold stripTN at h
  have := (List.mem_filter.mp h).2
  simpa using this

/-- Every record parseURL produces satisfies the shape invariant. -/
theorem parse_inv (s : List Char) (u : URLRec) (h : parseURL s = some u) :
    URLInv u := by
  unfold parseURL at h
  split at h
  case h_2 => exact absurd h (by simp)
  case h_1 r2 heq =>
    unfold parseAuthority at h
    split at h
    case h_1 => exact absurd h (by simp)
    case h_2 c0 rest hpre =>
      split at h
      case isFalse => exact absurd h (by simp)
      case isTrue hval =>
        unfold parseHostPath at h
        split at h
        case h_1 => exact absurd h (by simp)
        case h_2 hc hrest hhost =>
          have hu := (Option.some.inj h).symm
          rw [hpre, hhost] at hu
          rw [Bool.and_eq_true] at hval
          have halpha : isAsciiAlpha c0 = true := hval.1
          have hall : ∀ c ∈ c0 :: rest, isSchemeChar c = true := by
            have h2 := hval.2
            rw [hpre, List.all_eq_true] at h2
            exact h2
          -- membership facts for the component lists
          have hmem_pre : ∀ c ∈ c0 :: rest, c ∈ stripTN s := by
            intro c hcm
            rw [← hpre] at hcm
            exact mem_of_takeWhile _ _ _ hcm
          have hmem_r2 : ∀ c ∈ r2, c ∈ stripTN s := by
            intro c hcm
            have hsuf := List.dropWhile_suffix
              (l := stripTN s) (fun c => decide (c ≠ ':'))
            rw [heq] at hsuf
            exact hsuf.subset (by simp [hcm])
          have hmem_bh : ∀ c ∈ r2.takeWhile (fun c => c ≠ '#'),
              c ∈ r2 ∧ c ≠ '#' := by
            intro c hcm
            refine ⟨mem_of_takeWhile _ _ _ hcm, ?_⟩
            have := List.mem_takeWhile_imp hcm
            simpa using this
          have hmem_hp : ∀ c ∈ (r2.takeWhile (fun c => c ≠ '#')).takeWhile
              (fun c => c ≠ '?'), c ≠ '?' ∧ c ≠ '#' ∧
              isTabOrNewline c = false := by
            intro c hcm
            have h1 : c ≠ '?' := by
              have := List.mem_takeWhile_imp hcm
              simpa using this
            have h2 := hmem_bh c (mem_of_takeWhile _ _ _ hcm)
            exact ⟨h1, h2.2, stripTN_chars s c (hmem_r2 c h2.1)⟩
          constructor
          -- scheme_ne
          · rw [hu]
            simp
          -- scheme_head
          · intro c hc2
            rw [hu] at hc2
            simp only [List.map_cons, List.head?_cons, Option.some.injEq] at hc2
            rw [← hc2]
            exact isAsciiAlpha_lowerChar c0 halpha
          -- scheme_chars
          · intro c hc2
            rw [hu] at hc2
            simp only [List.mem_map] at hc2
            obtain ⟨a, ha, rfl⟩ := hc2
            exact isSchemeChar_lowerChar a (hall a ha)
          -- scheme_lower
          · rw [hu]
            exact map_lower_idem _
          -- host_ne
          · rw [hu]
            simp
          -- host_chars
          · intro c hc2
            rw [hu] at hc2
            simp only [List.mem_map] at hc2
            obtain ⟨a, ha, rfl⟩ := hc2
            apply lowerChar_hostChar
            have hmem : a ∈ (r2.takeWhile (fun c => c ≠ '#')).takeWhile
                (fun c => c ≠ '?') := by
              rw [← hhost] at ha
              exact mem_of_takeWhile _ _ _ ha
            have hpred : a ≠ '/' ∧ a ≠ '\\' := by
              have : a ∈ ((r2.takeWhile (fun c => c ≠ '#')).takeWhile
                  (fun c => c ≠ '?')).takeWhile
                  (fun c => c ≠ '/' && c ≠ '\\') := hhost ▸ ha
              have := List.mem_takeWhile_imp this
              simpa using this
            obtain ⟨hq, hh, htn⟩ := hmem_hp a hmem
            exact ⟨hpred.1, hpred.2, hq, hh, htn⟩
          -- host_lower
          · rw [hu]
            exact map_lower_idem _
          -- path_head
          · rw [hu]
            rcases hpr : ((r2.takeWhile (fun c => c ≠ '#')).takeWhile
                (fun c => c ≠ '?')).dropWhile
                (fun c => c ≠ '/' && c ≠ '\\') with _ | ⟨p0, prest⟩
            · simp [hpr]
            · simp only [hpr, List.map_cons, List.head?_cons, Option.some.injEq]
              have hfail : (decide (p0 ≠ '/') && decide (p0 ≠ '\\')) = false := by
                have := dropWhile_head_false _ _ p0 (by rw [hpr]; rfl)
                simpa using this
              rw [Bool.and_eq_false_iff] at hfail
              rcases hfail with hf | hf
              · have : p0 = '/' := by simpa using hf
                rw [this]
                simp
              · have : p0 = '\\' := by simpa using hf
                rw [this]
                simp
          -- path_chars
          · intro c hc2
            rw [hu] at hc2
            rcases hpr : ((r2.takeWhile (fun c => c ≠ '#')).takeWhile
                (fun c => c ≠ '?')).dropWhile
                (fun c => c ≠ '/' && c ≠ '\\') with _ | ⟨p0, prest⟩
            · rw [hpr] at hc2
              simp only [List.mem_singleton] at hc2
              rw [hc2]
              exact ⟨by decide, by decide, by decide, by decide⟩
            · rw [hpr] at hc2
              simp only [List.mem_map] at hc2
              obtain ⟨a, ha, rfl⟩ := hc2
              have hmem : a ∈ (r2.takeWhile (fun c => c ≠ '#')).takeWhile
                  (fun c => c ≠ '?') := by
                apply mem_of_dropWhile (fun c => c ≠ '/' && c ≠ '\\')
                rw [hpr]
                exact ha
              obtain ⟨hq, hh, htn⟩ := hmem_hp a hmem
              by_cases hb : a = '\\'
              · rw [if_pos hb]
                exact ⟨by decide, by decide, by decide, by decide⟩
              · rw [if_neg hb]
                exact ⟨hq, hh, hb, htn⟩
          -- query_chars
          · intro q hq c hcm
            rw [hu] at hq
            simp only at hq
            unfold optTail at hq
            split at hq
            case h_2 => exact absurd hq (by simp)
            case h_1 d0 f hdrop =>
              have hq2 : q = f := by
                injection hq with hq2
                exact hq2.symm
              subst hq2
              have hcm2 : c ∈ r2.takeWhile (fun c => c ≠ '#') := by
                apply mem_of_dropWhile (fun c => c ≠ '?')
                rw [hdrop]
                simp [hcm]
              have h2 := hmem_bh c hcm2
              exact ⟨h2.2, stripTN_chars s c (hmem_r2 c h2.1)⟩

/-! ## Percent-encoding lemmas -/

theorem encPQ_cons (c : Char) (cs : List Char) :
    encPQ (c :: cs) =
      (if c = ' ' then ['%', '2', '0']
       else if c = '\x0B' then ['%', '0', 'B']
       else if c = '\x0C' then ['%', '0', 'C']
       else [c]) ++ encPQ cs := rfl

theorem encPQ_append (a b : List Char) :
    encPQ (a ++ b) = encPQ a ++ encPQ b := by
  induction a with
  | nil => rfl
  | cons c cs ih =>
    rw [List.cons_append, encPQ_cons, encPQ_cons, ih, List.append_assoc]

theorem encPQ_chars (l : List Char) (c : Char) (h : c ∈ encPQ l) :
    c ∈ l ∨ c ∈ ['%', '2', '0', 'B', 'C'] := by
  induction l with
  | nil => simp [encPQ] at h
  | cons d ds ih =>
    rw [encPQ_cons, List.mem_append] at h
    rcases h with h | h
    · split at h
      · rcases (by simpa using h : c = '%' ∨ c = '2' ∨ c = '0') with rfl | rfl | rfl <;>
          (right; decide)
      · split at h
        · rcases (by simpa using h : c = '%' ∨ c = '0' ∨ c = 'B') with rfl | rfl | rfl <;>
            (right; decide)
        · split at h
          · rcases (by simpa using h : c = '%' ∨ c = '0' ∨ c = 'C') with rfl | rfl | rfl <;>
              (right; decide)
          · have : c = d := by simpa using h
            subst this
            left
            simp
    · rcases ih h with h2 | h2
      · left; simp [h2]
      · right; exact h2

theorem encPQ_not_enc (l : List Char) (c : Char) (h : c ∈ encPQ l) :
    c ≠ ' ' ∧ c ≠ '\x0B' ∧ c ≠ '\x0C' := by
  induction l with
  | nil => simp [encPQ] at h
  | cons d ds ih =>
    rw [encPQ_cons, List.mem_append] at h
    rcases h with h | h
    · split at h
      · rcases (by simpa using h : c = '%' ∨ c = '2' ∨ c = '0') with rfl | rfl | rfl <;>
          exact ⟨by decide, by decide, by decide⟩
      · split at h
        · rcases (by simpa using h : c = '%' ∨ c = '0' ∨ c = 'B') with rfl | rfl | rfl <;>
            exact ⟨by decide, by decide, by decide⟩
        · split at h
          · rcases (by simpa using h : c = '%' ∨ c = '0' ∨ c = 'C') with rfl | rfl | rfl <;>
              exact ⟨by decide, by decide, by decide⟩
          · rename_i h1 h2 h3
            have : c = d := by simpa using h
            subst this
            exact ⟨h1, h2, h3⟩
    · exact ih h

theorem encPQ_eq_self (l : List Char)
    (h : ∀ c ∈ l, c ≠ ' ' ∧ c ≠ '\x0B' ∧ c ≠ '\x0C') : encPQ l = l := by
  induction l with
  | nil => rfl
  | cons d ds ih =>
    obtain ⟨h1, h2, h3⟩ := h d (by simp)
    rw [encPQ_cons, if_neg h1, if_neg h2, if_neg h3,
      ih (fun c hc => h c (by simp [hc]))]
    rfl

theorem encPQ_idem (l : List Char) : encPQ (encPQ l) = encPQ l :=
  encPQ_eq_self _ (encPQ_not_enc l)

theorem encPQ_ne_nil (l : List Char) (h : l ≠ []) : encPQ l ≠ [] := by
  cases l with
  | nil => exact absurd rfl h
  | cons d ds =>
    rw [encPQ_cons]
    split
    · simp
    · split
      · simp
      · split
        · simp
        · simp

theorem encPQ_cons_slash (l : List Char) :
    encPQ ('/' :: l) = '/' :: encPQ l := by
  rw [encPQ_cons, if_neg (by decide), if_neg (by decide), if_neg (by decide)]
  rfl

theorem encPQ_tn (l : List Char) (h : ∀ c ∈ l, isTabOrNewline c = false) :
    ∀ c ∈ encPQ l, isTabOrNewline c = false := by
  intro c hc
  rcases encPQ_chars l c hc with h2 | h2
  · exact h c h2
  · rcases (by simpa using h2 : c = '%' ∨ c = '2' ∨ c = '0' ∨ c = 'B' ∨ c = 'C') with
      rfl | rfl | rfl | rfl | rfl <;> decide

theorem isJsWs_false_of (c : Char) (h1 : c ≠ ' ') (h2 : c ≠ '\t')
    (h3 : c ≠ '\n') (h4 : c ≠ '\r') (h5 : c ≠ '\x0B') (h6 : c ≠ '\x0C') :
    isJsWs c = false := by
  unfold isJsWs
  rw [beq_eq_false_iff_ne.mpr h1, beq_eq_false_iff_ne.mpr h2,
    beq_eq_false_iff_ne.mpr h3, beq_eq_false_iff_ne.mpr h4,
    beq_eq_false_iff_ne.mpr h5, beq_eq_false_iff_ne.mpr h6]
  rfl

theorem encPQ_ws (l : List Char) (h : ∀ c ∈ l, isTabOrNewline c = false) :
    ∀ c ∈ encPQ l, isJsWs c = false := by
  intro c hc
  obtain ⟨h1, h5, h6⟩ := encPQ_not_enc l c hc
  obtain ⟨h2, h3, h4⟩ := ne_of_notTN c (encPQ_tn l h c hc)
  exact isJsWs_false_of c h1 h2 h3 h4 h5 h6

/-! ## The serialization round trip -/

theorem inv_set_frag (u : URLRec) (h : URLInv u) :
    URLInv { u with frag := none } := by
  obtain ⟨a, b, c, d, e, f, g, hh, i, j⟩ := h
  exact ⟨a, b, c, d, e, f, g, hh, i, j⟩

theorem inv_drop_query (u : URLRec) (h : URLInv u) :
    URLInv { u with query := none } := by
  obtain ⟨a, b, c, d, e, f, g, hh, i, _⟩ := h
  refine ⟨a, b, c, d, e, f, g, hh, i, ?_⟩
  intro q hq
  simp at hq

theorem urlrec_ext (a b : URLRec) (h1 : a.scheme = b.scheme)
    (h2 : a.host = b.host) (h3 : a.path = b.path) (h4 : a.query = b.query)
    (h5 : a.frag = b.frag) : a = b := by
  cases a
  cases b
  congr 1

theorem stripTN_eq_self (l : List Char)
    (h : ∀ c ∈ l, isTabOrNewline c = false) : stripTN l = l := by
  unfold stripTN
  rw [List.filter_eq_self]
  intro a ha
  simp [h a ha]

/-- Serialized form of a fragment-free record, with the tail grouped after
the authority marker. -/
theorem serialize_shape (u : URLRec) (hf : u.frag = none) :
    serializeURL u = u.scheme ++ ':' :: '/' :: '/' ::
      (u.host ++ encPQ u.path ++
        (match u.query with
         | some q => '?' :: encPQ q
         | none => [])) := by
  unfold serializeURL
  rw [hf]
  simp only [List.append_nil, List.append_assoc, List.cons_append]

theorem parseURL_eval (s r2 : List Char) (hTN : stripTN s = s)
    (hdrop : s.dropWhile (fun c => c ≠ ':') = ':' :: '/' :: '/' :: r2) :
    parseURL s = parseAuthority (s.takeWhile (fun c => c ≠ ':')) r2 := by
  unfold parseURL
  rw [hTN, hdrop]
  rfl

theorem parseAuthority_eval (pre r2 : List Char) (c0 : Char)
    (srest : List Char) (hpre : pre = c0 :: srest)
    (hval : (isAsciiAlpha c0 && pre.all isSchemeChar) = true) :
    parseAuthority pre r2 = parseHostPath pre
      ((r2.takeWhile (fun c => c ≠ '#')).takeWhile (fun c => c ≠ '?'))
      (optTail ((r2.takeWhile (fun c => c ≠ '#')).dropWhile (fun c => c ≠ '?')))
      (optTail (r2.dropWhile (fun c => c ≠ '#'))) := by
  subst hpre
  exact if_pos hval

theorem parseHostPath_eval (pre hp : List Char) (q f : Option (List Char))
    (h0 : Char) (hr : List Char)
    (hh : hp.takeWhile (fun c => c ≠ '/' && c ≠ '\\') = h0 :: hr) :
    parseHostPath pre hp q f =
      some { scheme := pre.map lowerChar
             host := (h0 :: hr).map lowerChar
             path :=
               match hp.dropWhile (fun c => c ≠ '/' && c ≠ '\\') with
               | [] => ['/']
               | pr => pr.map (fun c => if c = '\\' then '/' else c)
             query := q
             frag := f } := by
  unfold parseHostPath
  rw [hh]

/-- Reparsing a serialized fragment-free record succeeds and yields the
record with percent-encoded path and query. -/
theorem parse_serialize (u : URLRec) (hI : URLInv u) (hf : u.frag = none) :
    parseURL (serializeURL u) = some (canonU u) := by
  obtain ⟨hsne, hshead, hschars, hslower, hhne, hhchars, hhlower, hphead,
    hpchars, hqchars⟩ := hI
  obtain ⟨c0, srest, hscheme⟩ : ∃ c0 srest, u.scheme = c0 :: srest := by
    cases hs : u.scheme with
    | nil => exact absurd hs hsne
    | cons a b => exact ⟨a, b, rfl⟩
  obtain ⟨h0, hrest, hhost⟩ : ∃ h0 hr, u.host = h0 :: hr := by
    cases hs : u.host with
    | nil => exact absurd hs hhne
    | cons a b => exact ⟨a, b, rfl⟩
  obtain ⟨ps, hpath⟩ : ∃ ps, u.path = '/' :: ps := by
    cases hp : u.path with
    | nil => rw [hp] at hphead; simp at hphead
    | cons a b =>
      rw [hp] at hphead
      simp only [List.head?_cons, Option.some.injEq] at hphead
      exact ⟨b, by rw [hphead]⟩
  have hep : encPQ u.path = '/' :: encPQ ps := by
    rw [hpath, encPQ_cons_slash]
  -- character facts
  have hs_ne_colon : ∀ c ∈ u.scheme, (decide (c ≠ ':')) = true := by
    intro c hc
    simp [(isSchemeChar_not_special c (hschars c hc)).1]
  have hs_tn : ∀ c ∈ u.scheme, isTabOrNewline c = false := by
    intro c hc
    exact (isSchemeChar_not_special c (hschars c hc)).2.2.2.2.2
  have hh_hash : ∀ c ∈ u.host, (decide (c ≠ '#')) = true := by
    intro c hc
    simp [(hhchars c hc).2.2.2.1]
  have hh_qm : ∀ c ∈ u.host, (decide (c ≠ '?')) = true := by
    intro c hc
    simp [(hhchars c hc).2.2.1]
  have hh_P : ∀ c ∈ u.host, (decide (c ≠ '/') && decide (c ≠ '\\')) = true := by
    intro c hc
    simp [(hhchars c hc).1, (hhchars c hc).2.1]
  have hh_tn : ∀ c ∈ u.host, isTabOrNewline c = false := by
    intro c hc
    exact (hhchars c hc).2.2.2.2
  have hpcs : ∀ c ∈ ['%', '2', '0', 'B', 'C'],
      c ≠ '#' ∧ c ≠ '?' ∧ c ≠ '\\' := by
    intro c hc
    rcases (by simpa using hc : c = '%' ∨ c = '2' ∨ c = '0' ∨ c = 'B' ∨ c = 'C')
      with rfl | rfl | rfl | rfl | rfl <;> exact ⟨by decide, by decide, by decide⟩
  have hp_hash : ∀ c ∈ encPQ u.path, (decide (c ≠ '#')) = true := by
    intro c hc
    rcases encPQ_chars _ c hc with h2 | h2
    · simp [(hpchars c h2).2.1]
    · simp [(hpcs c h2).1]
  have hp_qm : ∀ c ∈ encPQ u.path, (decide (c ≠ '?')) = true := by
    intro c hc
    rcases encPQ_chars _ c hc with h2 | h2
    · simp [(hpchars c h2).1]
    · simp [(hpcs c h2).2.1]
  have hp_bs : ∀ c ∈ encPQ u.path, c ≠ '\\' := by
    intro c hc
    rcases encPQ_chars _ c hc with h2 | h2
    · exact (hpchars c h2).2.2.1
    · exact (hpcs c h2).2.2
  have hp_tn : ∀ c ∈ encPQ u.path, isTabOrNewline c = false :=
    encPQ_tn _ (fun c hc => (hpchars c hc).2.2.2)
  have hmap_path : ('/' :: encPQ ps).map (fun c => if c = '\\' then '/' else c)
      = '/' :: encPQ ps := by
    apply map_eq_self_of
    intro c hc
    rcases (by simpa using hc : c = '/' ∨ c ∈ encPQ ps) with rfl | h2
    · decide
    · have : c ∈ encPQ u.path := by rw [hep]; simp [h2]
      rw [if_neg (hp_bs c this)]
  have hval : (isAsciiAlpha c0 && u.scheme.all isSchemeChar) = true := by
    rw [Bool.and_eq_true]
    exact ⟨hshead c0 (by rw [hscheme]; rfl), List.all_eq_true.mpr hschars⟩
  rcases hquery : u.query with _ | q
  -- no query
  · have hshape := serialize_shape u hf
    rw [hquery] at hshape
    simp only [List.append_nil] at hshape
    have hR_hash : (u.host ++ encPQ u.path).takeWhile (fun c => c ≠ '#') =
        u.host ++ encPQ u.path := by
      apply takeWhile_all
      intro c hc
      rcases List.mem_append.mp hc with h2 | h2
      · exact hh_hash c h2
      · exact hp_hash c h2
    have hR_hash2 : (u.host ++ encPQ u.path).dropWhile (fun c => c ≠ '#')
        = [] := by
      apply dropWhile_all
      intro c hc
      rcases List.mem_append.mp hc with h2 | h2
      · exact hh_hash c h2
      · exact hp_hash c h2
    have hR_qm : (u.host ++ encPQ u.path).takeWhile (fun c => c ≠ '?') =
        u.host ++ encPQ u.path := by
      apply takeWhile_all
      intro c hc
      rcases List.mem_append.mp hc with h2 | h2
      · exact hh_qm c h2
      · exact hp_qm c h2
    have hR_qm2 : (u.host ++ encPQ u.path).dropWhile (fun c => c ≠ '?')
        = [] := by
      apply dropWhile_all
      intro c hc
      rcases List.mem_append.mp hc with h2 | h2
      · exact hh_qm c h2
      · exact hp_qm c h2
    have hHost : (u.host ++ encPQ u.path).takeWhile
        (fun c => c ≠ '/' && c ≠ '\\') = h0 :: hrest := by
      rw [hep, takeWhile_append_cons _ u.host '/' (encPQ ps) hh_P (by decide)]
      exact hhost
    have hDrop : (u.host ++ encPQ u.path).dropWhile
        (fun c => c ≠ '/' && c ≠ '\\') = '/' :: encPQ ps := by
      rw [hep]
      exact dropWhile_append_cons _ u.host '/' (encPQ ps) hh_P (by decide)
    have hTN : ∀ c ∈ serializeURL u, isTabOrNewline c = false := by
      rw [hshape]
      intro c hc
      rcases List.mem_append.mp hc with h2 | h2
      · exact hs_tn c h2
      · rcases (by simpa using h2 :
            c = ':' ∨ c = '/' ∨ c = '/' ∨ c ∈ u.host ++ encPQ u.path) with
          rfl | rfl | rfl | h3
        · decide
        · decide
        · decide
        · rcases List.mem_append.mp h3 with h4 | h4
          · exact hh_tn c h4
          · exact hp_tn c h4
    have hdrop : (serializeURL u).dropWhile (fun c => c ≠ ':') =
        ':' :: '/' :: '/' :: (u.host ++ encPQ u.path) := by
      rw [hshape]
      exact dropWhile_append_cons _ u.scheme ':' _ hs_ne_colon (by decide)
    have htake : (serializeURL u).takeWhile (fun c => c ≠ ':') = u.scheme := by
      rw [hshape]
      exact takeWhile_append_cons _ u.scheme ':' _ hs_ne_colon (by decide)
    rw [parseURL_eval (serializeURL u) (u.host ++ encPQ u.path)
      (stripTN_eq_self _ hTN) hdrop, htake,
      parseAuthority_eval u.scheme _ c0 srest hscheme hval,
      hR_hash, hR_hash2, hR_qm, hR_qm2,
      parseHostPath_eval u.scheme _ _ _ h0 hrest hHost, hDrop]
    unfold canonU
    rw [hquery]
    simp only [Option.map_none']
    congr 1
    refine urlrec_ext _ _ ?_ ?_ ?_ ?_ ?_
    · exact hslower
    · show (h0 :: hrest).map lowerChar = u.host
      rw [← hhost]
      exact hhlower
    · show ('/' :: encPQ ps).map (fun c => if c = '\\' then '/' else c) =
        encPQ u.path
      rw [hmap_path, hep]
    · rfl
    · show optTail [] = u.frag
      rw [hf]
      rfl
  -- with a query
  · have hshape := serialize_shape u hf
    rw [hquery] at hshape
    have hq_hash : ∀ c ∈ encPQ q, (decide (c ≠ '#')) = true := by
      intro c hc
      rcases encPQ_chars _ c hc with h2 | h2
      · simp [(hqchars q hquery c h2).1]
      · simp [(hpcs c h2).1]
    have hq_tn : ∀ c ∈ encPQ q, isTabOrNewline c = false :=
      encPQ_tn _ (fun c hc => (hqchars q hquery c hc).2)
    have hA_qm : ∀ c ∈ u.host ++ encPQ u.path, (decide (c ≠ '?')) = true := by
      intro c hc
      rcases List.mem_append.mp hc with h2 | h2
      · exact hh_qm c h2
      · exact hp_qm c h2
    have hR_hash : (u.host ++ encPQ u.path ++ '?' :: encPQ q).takeWhile
        (fun c => c ≠ '#') = u.host ++ encPQ u.path ++ '?' :: encPQ q := by
      apply takeWhile_all
      intro c hc
      rcases List.mem_append.mp hc with h2 | h2
      · rcases List.mem_append.mp h2 with h3 | h3
        · exact hh_hash c h3
        · exact hp_hash c h3
      · rcases (by simpa using h2 : c = '?' ∨ c ∈ encPQ q) with rfl | h3
        · decide
        · exact hq_hash c h3
    have hR_hash2 : (u.host ++ encPQ u.path ++ '?' :: encPQ q).dropWhile
        (fun c => c ≠ '#') = [] := by
      apply dropWhile_all
      intro c hc
      rcases List.mem_append.mp hc with h2 | h2
      · rcases List.mem_append.mp h2 with h3 | h3
        · exact hh_hash c h3
        · exact hp_hash c h3
      · rcases (by simpa using h2 : c = '?' ∨ c ∈ encPQ q) with rfl | h3
        · decide
        · exact hq_hash c h3
    have hR_qm : (u.host ++ encPQ u.path ++ '?' :: encPQ q).takeWhile
        (fun c => c ≠ '?') = u.host ++ encPQ u.path :=
      takeWhile_append_cons _ (u.host ++ encPQ u.path) '?' (encPQ q)
        hA_qm (by decide)
    have hR_qm2 : (u.host ++ encPQ u.path ++ '?' :: encPQ q).dropWhile
        (fun c => c ≠ '?') = '?' :: encPQ q :=
      dropWhile_append_cons _ (u.host ++ encPQ u.path) '?' (encPQ q)
        hA_qm (by decide)
    have hHost : (u.host ++ encPQ u.path).takeWhile
        (fun c => c ≠ '/' && c ≠ '\\') = h0 :: hrest := by
      rw [hep, takeWhile_append_cons _ u.host '/' (encPQ ps) hh_P (by decide)]
      exact hhost
    have hDrop : (u.host ++ encPQ u.path).dropWhile
        (fun c => c ≠ '/' && c ≠ '\\') = '/' :: encPQ ps := by
      rw [hep]
      exact dropWhile_append_cons _ u.host '/' (encPQ ps) hh_P (by decide)
    have hTN : ∀ c ∈ serializeURL u, isTabOrNewline c = false := by
      rw [hshape]
      intro c hc
      rcases List.mem_append.mp hc with h2 | h2
      · exact hs_tn c h2
      · rcases (by simpa using h2 : c = ':' ∨ c = '/' ∨ c = '/' ∨
            c ∈ u.host ++ encPQ u.path ++ '?' :: encPQ q) with
          rfl | rfl | rfl | h3
        · decide
        · decide
        · decide
        · rcases List.mem_append.mp h3 with h4 | h4
          · rcases List.mem_append.mp h4 with h5 | h5
            · exact hh_tn c h5
            · exact hp_tn c h5
          · rcases (by simpa using h4 : c = '?' ∨ c ∈ encPQ q) with rfl | h5
            · decide
            · exact hq_tn c h5
    have hdrop : (serializeURL u).dropWhile (fun c => c ≠ ':') =
        ':' :: '/' :: '/' :: (u.host ++ encPQ u.path ++ '?' :: encPQ q) := by
      rw [hshape]
      exact dropWhile_append_cons _ u.scheme ':' _ hs_ne_colon (by decide)
    have htake : (serializeURL u).takeWhile (fun c => c ≠ ':') = u.scheme := by
      rw [hshape]
      exact takeWhile_append_cons _ u.scheme ':' _ hs_ne_colon (by decide)
    rw [parseURL_eval (serializeURL u) (u.host ++ encPQ u.path ++ '?' :: encPQ q)
      (stripTN_eq_self _ hTN) hdrop, htake,
      parseAuthority_eval u.scheme _ c0 srest hscheme hval,
      hR_hash, hR_hash2, hR_qm, hR_qm2,
      parseHostPath_eval u.scheme _ _ _ h0 hrest hHost, hDrop]
    unfold canonU
    rw [hquery]
    simp only [Option.map_some']
    congr 1
    refine urlrec_ext _ _ ?_ ?_ ?_ ?_ ?_
    · exact hslower
    · show (h0 :: hrest).map lowerChar = u.host
      rw [← hhost]
      exact hhlower
    · show ('/' :: encPQ ps).map (fun c => if c = '\\' then '/' else c) =
        encPQ u.path
      rw [hmap_path, hep]
    · rfl
    · show optTail [] = u.frag
      rw [hf]
      rfl

theorem serialize_canon (u : URLRec) :
    serializeURL (canonU u) = serializeURL u := by
  obtain ⟨s, h, p, q, f⟩ := u
  cases q with
  | none => simp [canonU, serializeURL, encPQ_idem]
  | some q0 => simp [canonU, serializeURL, encPQ_idem]

theorem canon_idem (u : URLRec) : canonU (canonU u) = canonU u := by
  obtain ⟨s, h, p, q, f⟩ := u
  cases q with
  | none => simp [canonU, encPQ_idem]
  | some q0 => simp [canonU, encPQ_idem]

theorem canon_drop_query (u : URLRec) :
    { canonU u with query := none } = canonU { u with query := none } := by
  obtain ⟨s, h, p, q, f⟩ := u
  rfl

theorem set_frag_id (u : URLRec) (h : u.frag = none) :
    { u with frag := none } = u := by
  obtain ⟨s, h0, p, q, f⟩ := u
  simp only at h
  rw [h]

theorem inv_canon (u : URLRec) (h : URLInv u) : URLInv (canonU u) := by
  obtain ⟨a, b, c, d, e, f, g, hh, i, j⟩ := h
  have hpcs2 : ∀ c ∈ ['%', '2', '0', 'B', 'C'],
      c ≠ '?' ∧ c ≠ '#' ∧ c ≠ '\\' ∧ isTabOrNewline c = false := by
    intro c hc
    rcases (by simpa using hc : c = '%' ∨ c = '2' ∨ c = '0' ∨ c = 'B' ∨ c = 'C')
      with rfl | rfl | rfl | rfl | rfl <;>
      exact ⟨by decide, by decide, by decide, by decide⟩
  refine ⟨a, b, c, d, e, f, g, ?_, ?_, ?_⟩
  · show (encPQ u.path).head? = some '/'
    obtain ⟨ps, hp⟩ : ∃ ps, u.path = '/' :: ps := by
      cases hp : u.path with
      | nil => rw [hp] at hh; simp at hh
      | cons x xs =>
        rw [hp] at hh
        simp only [List.head?_cons, Option.some.injEq] at hh
        exact ⟨xs, by rw [hh]⟩
    rw [hp, encPQ_cons_slash]
    rfl
  · show ∀ c ∈ encPQ u.path, PathChar c
    intro c hc
    rcases encPQ_chars _ c hc with h2 | h2
    · exact i c h2
    · obtain ⟨x1, x2, x3, x4⟩ := hpcs2 c h2
      exact ⟨x1, x2, x3, x4⟩
  · show ∀ q, (u.query.map encPQ) = some q → ∀ c ∈ q, QueryChar c
    intro q hq c hc
    rcases hq0 : u.query with _ | q0
    · rw [hq0] at hq
      simp at hq
    · rw [hq0] at hq
      simp only [Option.map_some', Option.some.injEq] at hq
      subst hq
      rcases encPQ_chars _ c hc with h2 | h2
      · exact j q0 hq0 c h2
      · obtain ⟨x1, x2, x3, x4⟩ := hpcs2 c h2
        exact ⟨x2, x4⟩

theorem getLast?_mem {α : Type} (l : List α) (c : α)
    (h : l.getLast? = some c) : c ∈ l := by
  rw [← List.head?_reverse] at h
  have : c ∈ l.reverse := by
    cases hr : l.reverse with
    | nil => rw [hr] at h; simp at h
    | cons a t =>
      rw [hr] at h
      simp only [List.head?_cons, Option.some.injEq] at h
      simp [h]
  exact List.mem_reverse.mp this

theorem isAsciiAlpha_toNat (c : Char) (h : isAsciiAlpha c = true) :
    (97 ≤ c.toNat ∧ c.toNat ≤ 122) ∨ (65 ≤ c.toNat ∧ c.toNat ≤ 90) := by
  unfold isAsciiAlpha at h
  simp only [Bool.or_eq_true, Bool.and_eq_true, decide_eq_true_eq] at h
  rcases h with ⟨h1, h2⟩ | ⟨h1, h2⟩
  · exact Or.inl ⟨h1, h2⟩
  · exact Or.inr ⟨h1, h2⟩

theorem serialize_head_ws (u : URLRec) (hI : URLInv u) :
    ∀ c, (serializeURL u).head? = some c → isJsWs c = false := by
  intro c hc
  obtain ⟨c0, srest, hscheme⟩ : ∃ c0 srest, u.scheme = c0 :: srest := by
    cases hs : u.scheme with
    | nil => exact absurd hs hI.scheme_ne
    | cons a b => exact ⟨a, b, rfl⟩
  unfold serializeURL at hc
  rw [hscheme] at hc
  simp only [List.cons_append, List.head?_cons, Option.some.injEq] at hc
  have halpha := hI.scheme_head c0 (by rw [hscheme]; rfl)
  have hn := isAsciiAlpha_toNat c0 halpha
  rw [← hc]
  exact isJsWs_false_of c0 (char_ne_of_toNat c0 ' ' 32 (by decide) (by omega))
    (char_ne_of_toNat c0 '\t' 9 (by decide) (by omega))
    (char_ne_of_toNat c0 '\n' 10 (by decide) (by omega))
    (char_ne_of_toNat c0 '\r' 13 (by decide) (by omega))
    (char_ne_of_toNat c0 '\x0B' 11 (by decide) (by omega))
    (char_ne_of_toNat c0 '\x0C' 12 (by decide) (by omega))

theorem serialize_getLast_ws (u : URLRec) (hI : URLInv u)
    (hf : u.frag = none) :
    ∀ c, (serializeURL u).getLast? = some c → isJsWs c = false := by
  intro c hc
  obtain ⟨ps, hpath⟩ : ∃ ps, u.path = '/' :: ps := by
    cases hp : u.path with
    | nil => have := hI.path_head; rw [hp] at this; simp at this
    | cons x xs =>
      have := hI.path_head
      rw [hp] at this
      simp only [List.head?_cons, Option.some.injEq] at this
      exact ⟨xs, by rw [this]⟩
  have hp_tn : ∀ x ∈ u.path, isTabOrNewline x = false :=
    fun x hx => (hI.path_chars x hx).2.2.2
  rw [serialize_shape u hf] at hc
  rcases hquery : u.query with _ | q
  · rw [hquery] at hc
    simp only [List.append_nil] at hc
    have hne : u.host ++ encPQ u.path ≠ [] := by
      rw [hpath, encPQ_cons_slash]
      simp
    have h1 : (u.scheme ++ ':' :: '/' :: '/' :: (u.host ++ encPQ u.path)).getLast?
        = (u.host ++ encPQ u.path).getLast? := by
      have hsuf : (u.host ++ encPQ u.path) <:+
          u.scheme ++ ':' :: '/' :: '/' :: (u.host ++ encPQ u.path) :=
        ⟨u.scheme ++ [':', '/', '/'], by simp⟩
      exact (suffix_getLast _ _ hsuf hne).symm
    rw [h1] at hc
    have h2 : (u.host ++ encPQ u.path).getLast? = (encPQ u.path).getLast? := by
      have hne2 : encPQ u.path ≠ [] := by
        rw [hpath, encPQ_cons_slash]
        simp
      exact (suffix_getLast _ _ ⟨u.host, rfl⟩ hne2).symm
    rw [h2] at hc
    exact encPQ_ws u.path hp_tn c (getLast?_mem _ c hc)
  · rw [hquery] at hc
    have hq_tn : ∀ x ∈ q, isTabOrNewline x = false :=
      fun x hx => (hI.query_chars q hquery x hx).2
    have hne : '?' :: encPQ q ≠ [] := by simp
    have h1 : (u.scheme ++ ':' :: '/' :: '/' ::
        (u.host ++ encPQ u.path ++ '?' :: encPQ q)).getLast?
        = ('?' :: encPQ q).getLast? := by
      have hsuf : ('?' :: encPQ q) <:+ u.scheme ++ ':' :: '/' :: '/' ::
          (u.host ++ encPQ u.path ++ '?' :: encPQ q) :=
        ⟨u.scheme ++ ':' :: '/' :: '/' :: (u.host ++ encPQ u.path), by simp⟩
      exact (suffix_getLast _ _ hsuf hne).symm
    rw [h1] at hc
    cases hq : encPQ q with
    | nil =>
      rw [hq] at hc
      simp only [List.getLast?_singleton, Option.some.injEq] at hc
      subst hc
      decide
    | cons e es =>
      rw [hq] at hc
      rw [getLast?_cons_ne '?' (e :: es) (by simp)] at hc
      have : c ∈ encPQ q := by
        rw [hq]
        exact getLast?_mem _ c hc
      exact encPQ_ws q hq_tn c this

/-- A serialized fragment-free record is its own trim. -/
theorem serialize_trim (u : URLRec) (hI : URLInv u) (hf : u.frag = none) :
    trimL (serializeURL u) = serializeURL u :=
  trimL_eq_self _ (serialize_head_ws u hI) (serialize_getLast_ws u hI hf)

/-- A serialized record without a query contains no backslash at all. -/
theorem serialize_no_bslash (u : URLRec) (hI : URLInv u)
    (hq : u.query = none) (hf : u.frag = none) :
    containsSub ['\\', '/'] (serializeURL u) = false := by
  apply containsSub_false_of_not_head ['\\', '/'] (serializeURL u) '\\' (by rfl)
  rw [serialize_shape u hf, hq]
  simp only [List.append_nil]
  intro x hx
  rcases List.mem_append.mp hx with h2 | h2
  · exact (isSchemeChar_not_special x (hI.scheme_chars x h2)).2.2.1
  · rcases (by simpa using h2 :
        x = ':' ∨ x = '/' ∨ x = '/' ∨ x ∈ u.host ++ encPQ u.path) with
      rfl | rfl | rfl | h3
    · decide
    · decide
    · decide
    · rcases List.mem_append.mp h3 with h4 | h4
      · exact (hI.host_chars x h4).2.1
      · rcases encPQ_chars _ x h4 with h5 | h5
        · exact (hI.path_chars x h5).2.2.1
        · rcases (by simpa using h5 :
              x = '%' ∨ x = '2' ∨ x = '0' ∨ x = 'B' ∨ x = 'C') with
            rfl | rfl | rfl | rfl | rfl <;> decide

theorem set_query_id (u : URLRec) (h : u.query = none) :
    { u with query := none } = u := by
  obtain ⟨s, h0, p, q, f⟩ := u
  simp only at h
  rw [h]

/-- Cleansing is a projection on strings whose cleansed form has no
escaped slash left. -/
theorem cleanse_idem (l : List Char)
    (h : containsSub ['\\', '/'] (cleanse l) = false) :
    cleanse (cleanse l) = cleanse l := by
  have htr : trimL (unescapeSlashes (trimL l)) = unescapeSlashes (trimL l) := by
    apply trimL_eq_self
    · intro c hc
      rcases unescape_head_ws (trimL l) c hc with h2 | h2
      · exact h2
      · exact trimL_head l c h2
    · intro c hc
      rw [unescape_getLast] at hc
      exact trimL_getLast l c hc
  show unescapeSlashes (trimL (unescapeSlashes (trimL l))) = cleanse l
  rw [htr]
  exact unescape_eq_self _ h

/-! ## Evaluation lemmas for normalizeUrlish / normalizeForMatch -/

theorem normalizeUrlish_of_fail (s : String)
    (h : parseURL (cleanse s.data) = none) :
    normalizeUrlish s = ⟨cleanse s.data⟩ := by
  simp only [normalizeUrlish, h]

theorem normalizeUrlish_of_ok (s : String) (u : URLRec)
    (h : parseURL (cleanse s.data) = some u) :
    normalizeUrlish s = ⟨serializeURL { u with frag := none }⟩ := by
  simp only [normalizeUrlish, h]

/-- On parse failure both match forms are the cleansed input. -/
theorem nfm_of_fail (s : String) (h : parseURL (cleanse s.data) = none) :
    normalizeForMatch s = ⟨⟨cleanse s.data⟩, ⟨cleanse s.data⟩⟩ := by
  simp only [normalizeForMatch, normalizeUrlish_of_fail s h]
  rw [h]

/-- On parse success the match forms are the serializations of the
fragment-free record and its query-free variant. -/
theorem nfm_of_ok (s : String) (u : URLRec)
    (h : parseURL (cleanse s.data) = some u) :
    normalizeForMatch s =
      ⟨⟨serializeURL { u with frag := none }⟩,
       ⟨serializeURL { u with query := none, frag := none }⟩⟩ := by
  have hI0 := inv_set_frag u (parse_inv _ u h)
  have e1 : serializeURL (canonU { u with frag := none }) =
      serializeURL { u with frag := none } := serialize_canon _
  have e2 : serializeURL { canonU { u with frag := none } with query := none }
      = serializeURL { u with query := none, frag := none } := by
    rw [canon_drop_query]
    exact serialize_canon _
  simp only [normalizeForMatch, normalizeUrlish_of_ok s u h]
  rw [show parseURL (String.mk (serializeURL { u with frag := none })).data =
      some (canonU { u with frag := none }) from
    parse_serialize { u with frag := none } hI0 rfl]
  show (⟨⟨serializeURL (canonU { u with frag := none })⟩,
    ⟨serializeURL { canonU { u with frag := none } with query := none }⟩⟩ :
      MatchForms) = _
  rw [e1, e2]

/-- normalizeForMatch applied to the serialization of a canonical
fragment-free record returns it unchanged, with its query-free variant as
the second component. -/
theorem nfm_serialized (F : String) (v : URLRec) (hI : URLInv v)
    (hf : v.frag = none) (hcanon : canonU v = v)
    (hcl : cleanse F.data = F.data) (hFs : F.data = serializeURL v) :
    normalizeForMatch F =
      ⟨⟨serializeURL v⟩, ⟨serializeURL { v with query := none }⟩⟩ := by
  have hparse : parseURL (cleanse F.data) = some v := by
    rw [hcl, hFs, parse_serialize v hI hf, hcanon]
  have hn : normalizeUrlish F = F := by
    rw [normalizeUrlish_of_ok F v hparse, set_frag_id v hf, ← hFs]
  simp only [normalizeForMatch, hn]
  rw [show parseURL F.data = some v from by
    rw [hFs, parse_serialize v hI hf, hcanon]]

/-! ## Lemmas about the matcher pipeline -/

theorem firstSome_isSome {α β : Type} (f : α → Option β) (l : List α)
    (h : ∃ a ∈ l, (f a).isSome) : (firstSome f l).isSome := by
  induction l with
  | nil => simp at h
  | cons a rest ih =>
    unfold firstSome
    cases hfa : f a with
    | some b => rfl
    | none =>
      apply ih
      obtain ⟨x, hx, hxs⟩ := h
      rcases List.mem_cons.mp hx with rfl | hx2
      · rw [hfa] at hxs
        simp at hxs
      · exact ⟨x, hx2, hxs⟩

theorem mem_addUnique (l : List String) (s x : String) :
    x ∈ addUnique l s ↔ x ∈ l ∨ x = s := by
  unfold addUnique
  split
  · rename_i h
    constructor
    · exact Or.inl
    · rintro (h2 | rfl)
      · exact h2
      · exact List.elem_iff.mp h
  · simp

theorem foldl_addUnique_mem (l acc : List String) (x : String) :
    x ∈ l.foldl addUnique acc ↔ x ∈ acc ∨ x ∈ l := by
  induction l generalizing acc with
  | nil => simp
  | cons a rest ih =>
    rw [List.foldl_cons, ih, mem_addUnique]
    simp only [List.mem_cons]
    tauto

theorem addUnique_nodup (l : List String) (s : String) (h : l.Nodup) :
    (addUnique l s).Nodup := by
  unfold addUnique
  split
  · exact h
  · rename_i hc
    have hs : s ∉ l := fun hm => hc (List.elem_iff.mpr hm)
    simp [List.nodup_append, h, hs]

theorem foldl_addUnique_nodup (l acc : List String) (h : acc.Nodup) :
    (l.foldl addUnique acc).Nodup := by
  induction l generalizing acc with
  | nil => exact h
  | cons a rest ih => exact ih _ (addUnique_nodup acc a h)

theorem getField_setField_self (p : ProductRec) (k : String) (v : JVal) :
    getField (setField p k v) k = some v := by
  induction p with
  | nil => simp [setField, getField]
  | cons kv rest ih =>
    obtain ⟨k', v'⟩ := kv
    unfold setField
    split
    · rename_i hk
      simp [getField]
    · rename_i hk
      unfold getField at ih ⊢
      rw [List.find?_cons]
      simp only [hk]
      exact ih

theorem getField_setField_ne (p : ProductRec) (k : String) (v : JVal)
    (k' : String) (h : k' ≠ k) :
    getField (setField p k v) k' = getField p k' := by
  induction p with
  | nil =>
    simp only [setField, getField, List.find?]
    have : (k == k') = false := beq_eq_false_iff_ne.mpr (fun he => h he.symm)
    simp [this]
  | cons kv rest ih =>
    obtain ⟨k0, v0⟩ := kv
    unfold setField
    split
    · rename_i hk
      have hk0 : k0 = k := by simpa using hk
      unfold getField
      rw [List.find?_cons, List.find?_cons]
      have h1 : (k == k') = false := beq_eq_false_iff_ne.mpr (fun he => h he.symm)
      have h2 : (k0 == k') = false := by
        rw [hk0]
        exact h1
      simp only [h1, h2]
    · unfold getField at ih ⊢
      rw [List.find?_cons, List.find?_cons]
      cases hk0 : (k0 == k')
      · simpa using ih
      · simp

/-- Each enriched product always carries an images field. -/
theorem enrichOne_images (b : List (String × PageMedia)) (pages : List PageMedia)
    (product : ProductRec) :
    (getField (enrichOne b pages product) "images").isSome := by
  unfold enrichOne
  split
  · rename_i pm hm
    cases hmi : pm.mapIframe with
    | none =>
      simp only [hmi]
      rw [getField_setField_self]
      rfl
    | some m =>
      simp only [hmi]
      split
      · rw [getField_setField_self]
        rfl
      · rw [getField_setField_ne _ _ _ _ (by decide), getField_setField_self]
        rfl
  · rw [getField_setField_self]
    rfl

/-- Enrichment touches no field other than images and mapIframe. -/
theorem enrichOne_frame (b : List (String × PageMedia)) (pages : List PageMedia)
    (product : ProductRec) (key : String) (h1 : key ≠ "images")
    (h2 : key ≠ "mapIframe") :
    getField (enrichOne b pages product) key = getField product key := by
  unfold enrichOne
  split
  · rename_i pm hm
    cases hmi : pm.mapIframe with
    | none =>
      simp only [hmi]
      exact getField_setField_ne _ _ _ _ h1
    | some m =>
      simp only [hmi]
      split
      · exact getField_setField_ne _ _ _ _ h1
      · rw [getField_setField_ne _ _ _ _ h2, getField_setField_ne _ _ _ _ h1]
  · exact getField_setField_ne _ _ _ _ h1

theorem mainStep_enriched (b : List (String × PageMedia))
    (pages : List PageMedia) (st : RunState) (product : ProductRec) :
    (mainStep b pages st product).enriched =
      st.enriched ++ [enrichOne b pages product] := by
  simp only [mainStep]
  split
  · rfl
  · rfl

theorem foldl_mainStep_enriched (b : List (String × PageMedia))
    (pages : List PageMedia) (l : List ProductRec) (st : RunState) :
    (l.foldl (mainStep b pages) st).enriched =
      st.enriched ++ l.map (enrichOne b pages) := by
  induction l generalizing st with
  | nil => simp
  | cons p ps ih =>
    rw [List.foldl_cons, ih, mainStep_enriched]
    simp

/-- The running minimum of the link-length fold: it is the seed or one of
the scanned pages, and its link is no longer than any of theirs; on ties
the earlier element is kept, matching the head of a stable sort by
length. -/
theorem foldl_shortest (cs : List PageMedia) (b : PageMedia) :
    (cs.foldl (fun best p =>
        if p.link.length < best.link.length then p else best) b = b ∨
      cs.foldl (fun best p =>
        if p.link.length < best.link.length then p else best) b ∈ cs) ∧
    (cs.foldl (fun best p =>
        if p.link.length < best.link.length then p else best) b).link.length ≤
      b.link.length ∧
    ∀ c ∈ cs,
      (cs.foldl (fun best p =>
          if p.link.length < best.link.length then p else best) b).link.length ≤
        c.link.length := by
  induction cs generalizing b with
  | nil => exact ⟨Or.inl rfl, le_refl _, by simp⟩
  | cons c cs ih =>
    rw [List.foldl_cons]
    obtain ⟨hmem, hle, hall⟩ := ih (if c.link.length < b.link.length then c else b)
    have hle_b : (if c.link.length < b.link.length then c else b).link.length ≤
        b.link.length := by
      split
      · rename_i hlt
        exact le_of_lt hlt
      · exact le_refl _
    have hle_c : (if c.link.length < b.link.length then c else b).link.length ≤
        c.link.length := by
      split
      · exact le_refl _
      · rename_i hlt
        omega
    refine ⟨?_, le_trans hle hle_b, ?_⟩
    · rcases hmem with h1 | h1
      · rw [h1]
        split
        · right
          simp
        · left
          rfl
      · right
        exact List.mem_cons_of_mem _ h1
    · intro x hx
      rcases List.mem_cons.mp hx with rfl | hx2
      · exact le_trans hle hle_c
      · exact hall x hx2

theorem selectShortest_spec (l : List PageMedia) (h : l ≠ []) :
    ∃ m, selectShortest l = some m ∧ m ∈ l ∧
      ∀ c ∈ l, m.link.length ≤ c.link.length := by
  cases l with
  | nil => exact absurd rfl h
  | cons c cs =>
    obtain ⟨hmem, hle, hall⟩ := foldl_shortest cs c
    refine ⟨_, rfl, ?_, ?_⟩
    · rcases hmem with h1 | h1
      · rw [h1]
        simp
      · exact List.mem_cons_of_mem _ h1
    · intro x hx
      rcases List.mem_cons.mp hx with rfl | hx2
      · exact hle
      · exact hall x hx2

/-! ## Claim theorems -/

/-- C3 (corrected).  normalizeForMatch is idempotent on every input whose
computed full form contains no two-character sequence backslash-slash:
re-normalizing the full component returns the identical full/noQuery pair,
and re-normalizing the noQuery component returns that component as both
forms.  (On general inputs idempotence fails because normalizeUrlish first
rewrites every backslash-slash pair, see the counterexample below.) -/
theorem normalizeForMatch_idem_of_no_escaped_slash (s : String)
    (h1 : containsSubS "\\/" (normalizeForMatch s).full = false) :
    normalizeForMatch ((normalizeForMatch s).full) = normalizeForMatch s ∧
    normalizeForMatch ((normalizeForMatch s).noQuery) =
      ⟨(normalizeForMatch s).noQuery, (normalizeForMatch s).noQuery⟩ := by
  cases hp : parseURL (cleanse s.data) with
  | none =>
    have hnf := nfm_of_fail s hp
    rw [hnf] at h1 ⊢
    have h1' : containsSub ['\\', '/'] (cleanse s.data) = false := h1
    have hcc := cleanse_idem s.data h1'
    have hfail2 : parseURL (cleanse ((⟨cleanse s.data⟩ : String)).data) = none := by
      show parseURL (cleanse (cleanse s.data)) = none
      rw [hcc]
      exact hp
    constructor
    · calc normalizeForMatch (⟨cleanse s.data⟩ : String)
          = ⟨⟨cleanse (cleanse s.data)⟩, ⟨cleanse (cleanse s.data)⟩⟩ :=
            nfm_of_fail _ hfail2
        _ = ⟨⟨cleanse s.data⟩, ⟨cleanse s.data⟩⟩ := by rw [hcc]
    · calc normalizeForMatch (⟨cleanse s.data⟩ : String)
          = ⟨⟨cleanse (cleanse s.data)⟩, ⟨cleanse (cleanse s.data)⟩⟩ :=
            nfm_of_fail _ hfail2
        _ = ⟨⟨cleanse s.data⟩, ⟨cleanse s.data⟩⟩ := by rw [hcc]
  | some u =>
    have hI := parse_inv _ u hp
    have hI0 := inv_set_frag u hI
    have hIv := inv_canon _ hI0
    have hvfrag : (canonU { u with frag := none }).frag = none := rfl
    have hvcanon := canon_idem { u with frag := none }
    have hser : serializeURL (canonU { u with frag := none }) =
        serializeURL { u with frag := none } := serialize_canon _
    have hnf := nfm_of_ok s u hp
    rw [hnf] at h1 ⊢
    have h1' : containsSub ['\\', '/']
        (serializeURL { u with frag := none }) = false := h1
    constructor
    · have hFs : ((⟨serializeURL { u with frag := none }⟩ : String)).data =
          serializeURL (canonU { u with frag := none }) := by
        show serializeURL { u with frag := none } = _
        exact hser.symm
      have hcl : cleanse ((⟨serializeURL { u with frag := none }⟩ : String)).data =
          ((⟨serializeURL { u with frag := none }⟩ : String)).data := by
        show unescapeSlashes (trimL (serializeURL { u with frag := none })) =
          serializeURL { u with frag := none }
        rw [serialize_trim _ hI0 rfl]
        exact unescape_eq_self _ h1'
      have hres := nfm_serialized _ _ hIv hvfrag hvcanon hcl hFs
      rw [hres, hser, canon_drop_query, serialize_canon]
    · have hIw : URLInv { canonU { u with frag := none } with query := none } :=
        inv_drop_query _ hIv
      have hwfrag :
          ({ canonU { u with frag := none } with query := none }).frag = none := rfl
      have hwcanon :
          canonU { canonU { u with frag := none } with query := none } =
          { canonU { u with frag := none } with query := none } := by
        rw [canon_drop_query]
        exact canon_idem _
      have hserw :
          serializeURL { canonU { u with frag := none } with query := none } =
          serializeURL { u with query := none, frag := none } := by
        rw [canon_drop_query]
        exact serialize_canon _
      have hFs :
          ((⟨serializeURL { u with query := none, frag := none }⟩ : String)).data =
          serializeURL { canonU { u with frag := none } with query := none } := by
        show serializeURL { u with query := none, frag := none } = _
        exact hserw.symm
      have hnb :
          containsSub ['\\', '/']
            (serializeURL { canonU { u with frag := none } with query := none })
            = false :=
        serialize_no_bslash _ hIw rfl rfl
      have hcl :
          cleanse ((⟨serializeURL { u with query := none, frag := none }⟩ : String)).data =
          ((⟨serializeURL { u with query := none, frag := none }⟩ : String)).data := by
        show cleanse (serializeURL { u with query := none, frag := none }) =
          serializeURL { u with query := none, frag := none }
        rw [← hserw]
        show unescapeSlashes (trimL _) = _
        rw [serialize_trim _ hIw rfl]
        exact unescape_eq_self _ hnb
      have hres := nfm_serialized _ _ hIw hwfrag hwcanon hcl hFs
      rw [hres]
      show (⟨⟨serializeURL { canonU { u with frag := none } with query := none }⟩,
        ⟨serializeURL { canonU { u with frag := none } with query := none }⟩⟩ :
          MatchForms) = _
      rw [hserw]

/-- C3 counterexample: idempotence fails as stated for every input.  The
four-character input backslash-backslash-slash-slash cleanses to
backslash-slash-slash (replaceAll does not rescan its replacement), whose
re-normalization collapses the remaining escaped slash to slash-slash. -/
theorem normalizeForMatch_not_idempotent :
    normalizeForMatch ((normalizeForMatch "\\\\//").full) ≠
      normalizeForMatch "\\\\//" ∧
    normalizeForMatch "\\\\//" = ⟨"\\//", "\\//"⟩ ∧
    normalizeForMatch "\\//" = ⟨"//", "//"⟩ := by
  refine ⟨?_, by decide, by decide⟩
  decide

/-- C3 witness: a concrete URL with uppercase, a space and a query is
idempotent under normalizeForMatch. -/
theorem normalizeForMatch_idem_witness :
    containsSubS "\\/" (normalizeForMatch "HTTPS://X.test/a b?c=1#frag").full
      = false ∧
    normalizeForMatch ((normalizeForMatch "HTTPS://X.test/a b?c=1#frag").full)
      = normalizeForMatch "HTTPS://X.test/a b?c=1#frag" :=
  ⟨by decide,
   (normalizeForMatch_idem_of_no_escaped_slash "HTTPS://X.test/a b?c=1#frag"
     (by decide)).1⟩

/-- C9 counterexample: a malformed input is not returned as its trimmed
self; the escaped slash is still rewritten before the parse attempt, so
the two-character input backslash-slash comes back as a single slash. -/
theorem normalizeForMatch_backslash_not_literal :
    (normalizeForMatch "\\/").full ≠ jsTrim "\\/" ∧
    (normalizeForMatch "\\/").noQuery ≠ jsTrim "\\/" ∧
    normalizeForMatch "\\/" = ⟨"/", "/"⟩ ∧
    jsTrim "\\/" = "\\/" := by
  refine ⟨?_, ?_, by decide, by decide⟩ <;> decide

/-- C9 (corrected): when the cleansed input (trimmed, every escaped slash
rewritten) fails URL parsing, normalizeForMatch returns that cleansed
string as both forms; the function is total, so no error is raised. -/
theorem normalizeForMatch_parse_failure_literal (s : String)
    (h : parseURL (cleanse s.data) = none) :
    normalizeForMatch s = ⟨⟨cleanse s.data⟩, ⟨cleanse s.data⟩⟩ :=
  nfm_of_fail s h

/-- C9 witness. -/
theorem normalizeForMatch_parse_failure_witness :
    parseURL (cleanse ("not a url" : String).data) = none ∧
    normalizeForMatch "not a url" = ⟨"not a url", "not a url"⟩ :=
  ⟨by decide, normalizeForMatch_parse_failure_literal "not a url" (by decide)⟩

/-- C8 (confirmed): splitOldUrls splits the documented example into the
four addresses, and every fragment it ever returns is non-empty and not
whitespace-only (order preservation is witnessed by the example). -/
theorem splitOldUrls_spec :
    splitOldUrls "a.com\nb.com; c.com,,  d.com" =
      ["a.com", "b.com", "c.com", "d.com"] ∧
    ∀ (s r : String), r ∈ splitOldUrls s →
      r ≠ "" ∧ r.data.all isJsWs = false := by
  refine ⟨by decide, ?_⟩
  intro s r hr
  unfold splitOldUrls at hr
  rw [List.mem_filter] at hr
  obtain ⟨hmem, hne⟩ := hr
  have hne' : r ≠ "" := by simpa using hne
  refine ⟨hne', ?_⟩
  rw [List.mem_map] at hmem
  obtain ⟨frag, _, rfl⟩ := hmem
  cases ht : trimL frag with
  | nil =>
    exfalso
    apply hne'
    show (⟨trimL frag⟩ : String) = ""
    rw [ht]
  | cons c cs =>
    rw [List.all_eq_false]
    refine ⟨c, ?_, ?_⟩
    · show c ∈ c :: cs
      simp
    · rw [trimL_head frag c (by rw [ht]; rfl)]
      simp

/-- C8 witness. -/
theorem splitOldUrls_spec_witness :
    ("a.com" : String) ∈ splitOldUrls "a.com\nb.com; c.com,,  d.com" ∧
    (("a.com" : String) ≠ "" ∧ ("a.com" : String).data.all isJsWs = false) :=
  ⟨by decide,
   splitOldUrls_spec.2 "a.com\nb.com; c.com,,  d.com" "a.com" (by decide)⟩

/-- C1 (code_bug): the language-prefix bonus alone reaches the acceptance
threshold.  The slug token xyzzyqux occurs in no page link, yet the page
scores 3 from its /nl/ segment and bestTokenMatch returns it, so tier 3
produces a match from the language bonus alone — contradicting the
source comment requiring at least one token hit. -/
theorem bestTokenMatch_language_bonus_alone :
    tokenizeSlug "/golfreizen/nl/xyzzyqux" = ["xyzzyqux"] ∧
    (tokenizeSlug "/golfreizen/nl/xyzzyqux").all
      (fun tk => !containsSubS tk
        (lowerS "https://x.test/nl/alpha")) = true ∧
    scorePageForTokens "https://x.test/nl/alpha"
      (tokenizeSlug "/golfreizen/nl/xyzzyqux") "nl" = 3 ∧
    bestTokenMatch
      [⟨"https://x.test/nl/alpha", ["https://x.test/i.jpg"], none⟩]
      (tokenizeSlug "/golfreizen/nl/xyzzyqux") "nl" =
      some ⟨"https://x.test/nl/alpha", ["https://x.test/i.jpg"], none⟩ ∧
    matchProduct [] [⟨"https://x.test/nl/alpha", ["https://x.test/i.jpg"], none⟩]
      "" "/golfreizen/nl/xyzzyqux" =
      some ⟨"https://x.test/nl/alpha", ["https://x.test/i.jpg"], none⟩ := by
  refine ⟨by decide, by decide, by decide, by decide, ?_⟩
  decide

/-- C7 (confirmed): a processed product with no tier match is appended
with an empty images array, the unmatched counter alone is incremented,
and exactly one diagnostic line is emitted precisely when the old_urls
text is a non-empty string. -/
theorem unmatched_accounting (byExact : List (String × PageMedia))
    (pages : List PageMedia) (st : RunState) (product : ProductRec)
    (h : matchProduct byExact pages (oldUrlsRawOf product) (slugOf product)
      = none) :
    mainStep byExact pages st product =
      { enriched := st.enriched ++ [setField product "images" (JVal.jarr [])]
        matched := st.matched
        unmatched := st.unmatched + 1
        diagnostics := st.diagnostics ++
          (if oldUrlsRawOf product == "" then []
           else ["No media match for old_urls: " ++ oldUrlsRawOf product]) } := by
  simp only [mainStep, enrichOne, h]
  cases hb : (oldUrlsRawOf product == "") <;> simp [hb]

/-- C7 witness. -/
theorem unmatched_accounting_witness :
    matchProduct [] [] (oldUrlsRawOf [("old_urls", JVal.jstr "https://nomatch.test/x")])
      (slugOf [("old_urls", JVal.jstr "https://nomatch.test/x")]) = none ∧
    mainStep [] [] ⟨[], 0, 0, []⟩
      [("old_urls", JVal.jstr "https://nomatch.test/x")] =
      { enriched := [[("old_urls", JVal.jstr "https://nomatch.test/x"),
          ("images", JVal.jarr [])]]
        matched := 0
        unmatched := 1
        diagnostics := ["No media match for old_urls: https://nomatch.test/x"] } :=
  ⟨by decide,
   (unmatched_accounting [] [] ⟨[], 0, 0, []⟩
     [("old_urls", JVal.jstr "https://nomatch.test/x")] (by decide)).trans
     (by decide)⟩

/-- C4 (confirmed): when any derived candidate of any legacy URL is a key
of the exact index, the matcher returns the tier-1 result; the result is a
match and does not depend on the pages list, so tiers 2 and 3 are never
consulted and cannot select a different page. -/
theorem tier1_priority (byExact : List (String × PageMedia))
    (raw slug : String)
    (h : ∃ url ∈ (if raw == "" then [] else splitOldUrls raw),
      ∃ c ∈ deriveCandidatesFromOldUrl url, (mapGet byExact c).isSome) :
    ∀ pages pages' : List PageMedia,
      matchProduct byExact pages raw slug =
        tier1 byExact (if raw == "" then [] else splitOldUrls raw) ∧
      (tier1 byExact (if raw == "" then [] else splitOldUrls raw)).isSome ∧
      matchProduct byExact pages raw slug =
        matchProduct byExact pages' raw slug := by
  have hsome : (tier1 byExact
      (if raw == "" then [] else splitOldUrls raw)).isSome := by
    apply firstSome_isSome
    obtain ⟨url, hu, c, hc, hs⟩ := h
    exact ⟨url, hu, firstSome_isSome _ _ ⟨c, hc, hs⟩⟩
  obtain ⟨p, hp⟩ := Option.isSome_iff_exists.mp hsome
  intro pages pages'
  refine ⟨?_, hsome, ?_⟩
  · simp only [matchProduct]
    rw [hp]
  · simp only [matchProduct]
    rw [hp]

/-- C4 witness. -/
theorem tier1_priority_witness :
    (∃ url ∈ (if ("https://x.test/a" : String) == "" then []
        else splitOldUrls "https://x.test/a"),
      ∃ c ∈ deriveCandidatesFromOldUrl url,
        (mapGet [("https://x.test/a",
          (⟨"https://x.test/a", ["i1"], none⟩ : PageMedia))] c).isSome) ∧
    matchProduct [("https://x.test/a", ⟨"https://x.test/a", ["i1"], none⟩)]
        [⟨"https://x.test/nl/other", ["i2"], none⟩] "https://x.test/a" "" =
      tier1 [("https://x.test/a", ⟨"https://x.test/a", ["i1"], none⟩)]
        (if ("https://x.test/a" : String) == "" then []
         else splitOldUrls "https://x.test/a") :=
  ⟨by decide,
   (tier1_priority [("https://x.test/a", ⟨"https://x.test/a", ["i1"], none⟩)]
     "https://x.test/a" "" (by decide)
     [⟨"https://x.test/nl/other", ["i2"], none⟩] []).1⟩

/-- C5 (confirmed): tier 2 stops at the first tail with any hits and never
merges later tails in; among the collected candidates those with a Dutch
path segment are preferred when any exist, otherwise all stay, and the
shortest link of the pool is selected; in the concrete 20-versus-30
example without Dutch pages the 20-character link wins. -/
theorem tier2_first_tail_and_shortest :
    (∀ (pages : List PageMedia) (pre : List String) (t : String)
        (post : List String),
      (∀ t' ∈ pre, tailHits pages t' = []) → tailHits pages t ≠ [] →
      tier2Candidates pages (pre ++ t :: post) = tailHits pages t) ∧
    (∀ (cands : List PageMedia) (lang : String), cands ≠ [] →
      ∃ m, preferBestMatch cands lang = some m ∧
        ((∃ c ∈ cands, containsSubS ("/" ++ lang ++ "/") c.link = true) →
          containsSubS ("/" ++ lang ++ "/") m.link = true ∧ m ∈ cands ∧
          ∀ c ∈ cands, containsSubS ("/" ++ lang ++ "/") c.link = true →
            m.link.length ≤ c.link.length) ∧
        ((∀ c ∈ cands, containsSubS ("/" ++ lang ++ "/") c.link = false) →
          m ∈ cands ∧ ∀ c ∈ cands, m.link.length ≤ c.link.length)) ∧
    preferBestMatch
      [⟨"https://x.test/abcde/fghij/klm", ["a"], none⟩,
       ⟨"https://x.test/abcde", ["b"], none⟩] "nl" =
      some ⟨"https://x.test/abcde", ["b"], none⟩ ∧
    ("https://x.test/abcde" : String).length = 20 ∧
    ("https://x.test/abcde/fghij/klm" : String).length = 30 ∧
    containsSubS "/nl/" "https://x.test/abcde" = false ∧
    containsSubS "/nl/" "https://x.test/abcde/fghij/klm" = false := by
  refine ⟨?_, ?_, by decide, by decide, by decide, by decide, by decide⟩
  · intro pages pre t post hpre ht
    induction pre with
    | nil =>
      rw [List.nil_append]
      have hemp : (tailHits pages t).isEmpty = false :=
        List.isEmpty_eq_false.mpr ht
      simp [tier2Candidates, hemp]
    | cons a pre ih =>
      rw [List.cons_append]
      have ha : tailHits pages a = [] := hpre a (by simp)
      simp only [tier2Candidates, ha, List.isEmpty_nil, if_pos]
      exact ih (fun t' ht' => hpre t' (by simp [ht']))
  · intro cands lang hne
    by_cases hemp : (cands.filter
        (fun c => containsSubS ("/" ++ lang ++ "/") c.link)).isEmpty
    · have hnil : cands.filter
          (fun c => containsSubS ("/" ++ lang ++ "/") c.link) = [] :=
        List.isEmpty_iff.mp hemp
      have hnolang : ∀ c ∈ cands,
          containsSubS ("/" ++ lang ++ "/") c.link = false := by
        intro c hc
        have := List.filter_eq_nil_iff.mp hnil c hc
        simpa using this
      obtain ⟨m, hm, hmem, hmin⟩ := selectShortest_spec cands hne
      refine ⟨m, ?_, ?_, fun _ => ⟨hmem, hmin⟩⟩
      · simp only [preferBestMatch, hemp, if_pos]
        exact hm
      · rintro ⟨c, hc, hcl⟩
        rw [hnolang c hc] at hcl
        exact absurd hcl (by simp)
    · have hemp' : (cands.filter
          (fun c => containsSubS ("/" ++ lang ++ "/") c.link)).isEmpty
          = false := by
        cases he : (cands.filter
            (fun c => containsSubS ("/" ++ lang ++ "/") c.link)).isEmpty
        · rfl
        · exact absurd he hemp
      have hbl := List.isEmpty_eq_false.mp hemp'
      obtain ⟨m, hm, hmem, hmin⟩ := selectShortest_spec
        (cands.filter (fun c => containsSubS ("/" ++ lang ++ "/") c.link)) hbl
      refine ⟨m, ?_, fun _ => ?_, ?_⟩
      · simp only [preferBestMatch]
        rw [if_neg hemp]
        exact hm
      · obtain ⟨hm1, hm2⟩ := List.mem_filter.mp hmem
        refine ⟨hm2, hm1, ?_⟩
        intro c hc hcl
        exact hmin c (List.mem_filter.mpr ⟨hc, hcl⟩)
      · intro hall
        obtain ⟨hm1, hm2⟩ := List.mem_filter.mp hmem
        rw [hall m hm1] at hm2
        exact absurd hm2 (by simp)

/-- C5 witness. -/
theorem tier2_first_tail_witness :
    (∀ t' ∈ ([] : List String),
      tailHits [⟨"https://x.test/abcde", ["b"], none⟩] t' = []) ∧
    tailHits [⟨"https://x.test/abcde", ["b"], none⟩] "abcde" ≠ [] ∧
    tier2Candidates [⟨"https://x.test/abcde", ["b"], none⟩]
        ([] ++ "abcde" :: []) =
      tailHits [⟨"https://x.test/abcde", ["b"], none⟩] "abcde" ∧
    ([⟨"https://x.test/abcde", ["b"], none⟩] : List PageMedia) ≠ [] ∧
    ∃ m, preferBestMatch [⟨"https://x.test/abcde", ["b"], none⟩] "nl" = some m ∧
      ((∃ c ∈ [(⟨"https://x.test/abcde", ["b"], none⟩ : PageMedia)],
          containsSubS "/nl/" c.link = true) →
        containsSubS "/nl/" m.link = true ∧
        m ∈ [(⟨"https://x.test/abcde", ["b"], none⟩ : PageMedia)] ∧
        ∀ c ∈ [(⟨"https://x.test/abcde", ["b"], none⟩ : PageMedia)],
          containsSubS "/nl/" c.link = true → m.link.length ≤ c.link.length) ∧
      ((∀ c ∈ [(⟨"https://x.test/abcde", ["b"], none⟩ : PageMedia)],
          containsSubS "/nl/" c.link = false) →
        m ∈ [(⟨"https://x.test/abcde", ["b"], none⟩ : PageMedia)] ∧
        ∀ c ∈ [(⟨"https://x.test/abcde", ["b"], none⟩ : PageMedia)],
          m.link.length ≤ c.link.length) :=
  ⟨by simp, by decide,
   tier2_first_tail_and_shortest.1 [⟨"https://x.test/abcde", ["b"], none⟩]
     [] "abcde" [] (by simp) (by decide),
   by decide,
   tier2_first_tail_and_shortest.2.1 [⟨"https://x.test/abcde", ["b"], none⟩]
     "nl" (by decide)⟩

/-- C2 counterexample: the candidate set derives nothing from a
/golfreizen/ URL, because the source rewrites the segment /golfreis/; in
particular the page URL of the end-to-end example is not derived and
tier 1 finds nothing for it. -/
theorem deriveCandidates_golfreizen_not_rewritten :
    deriveCandidatesFromOldUrl "https://x.test/nl/golfreizen/foo-tour" =
      ["https://x.test/nl/golfreizen/foo-tour"] ∧
    ("https://x.test/nl/foo-tour" : String) ∉
      deriveCandidatesFromOldUrl "https://x.test/nl/golfreizen/foo-tour" ∧
    tier1
      (buildByExact (buildPages
        [[("link", JVal.jstr "https://x.test/nl/foo-tour"),
          ("images", JVal.jarr [JAtom.astr "https://x.test/a.jpg"])]]))
      (splitOldUrls "https://x.test/nl/golfreizen/foo-tour") = none := by
  refine ⟨by decide, by decide, ?_⟩
  decide

set_option maxHeartbeats 2000000 in
/-- C2 (corrected): candidate derivation returns the de-duplicated,
insertion-ordered list of the full and no-query normalized forms together
with first-occurrence rewrites of /nl/golfreis/, /en/golfreis/ and
/golfreis/ to /nl/, /en/ and / on each of the two forms — the rewritten
segment is golfreis, not golfreizen.  On the end-to-end example the
derivation therefore leaves the URL unchanged and tier 1 misses, but
tier 2 matches the page through the surviving tail foo-tour, so the run
still ends with the product carrying the page image and counters
matched 1, unmatched 0. -/
theorem deriveCandidates_characterization :
    (∀ u : String,
      deriveCandidatesFromOldUrl u = dedupKeepFirst
        [(normalizeForMatch u).full, (normalizeForMatch u).noQuery,
         replaceFirst (normalizeForMatch u).full "/nl/golfreis/" "/nl/",
         replaceFirst (normalizeForMatch u).full "/en/golfreis/" "/en/",
         replaceFirst (normalizeForMatch u).full "/golfreis/" "/",
         replaceFirst (normalizeForMatch u).noQuery "/nl/golfreis/" "/nl/",
         replaceFirst (normalizeForMatch u).noQuery "/en/golfreis/" "/en/",
         replaceFirst (normalizeForMatch u).noQuery "/golfreis/" "/"] ∧
      (normalizeForMatch u).full ∈ deriveCandidatesFromOldUrl u ∧
      (normalizeForMatch u).noQuery ∈ deriveCandidatesFromOldUrl u ∧
      (deriveCandidatesFromOldUrl u).Nodup ∧
      ∀ c ∈ deriveCandidatesFromOldUrl u,
        c ∈ [(normalizeForMatch u).full, (normalizeForMatch u).noQuery,
         replaceFirst (normalizeForMatch u).full "/nl/golfreis/" "/nl/",
         replaceFirst (normalizeForMatch u).full "/en/golfreis/" "/en/",
         replaceFirst (normalizeForMatch u).full "/golfreis/" "/",
         replaceFirst (normalizeForMatch u).noQuery "/nl/golfreis/" "/nl/",
         replaceFirst (normalizeForMatch u).noQuery "/en/golfreis/" "/en/",
         replaceFirst (normalizeForMatch u).noQuery "/golfreis/" "/"]) ∧
    tier2
      (buildPages
        [[("link", JVal.jstr "https://x.test/nl/foo-tour"),
          ("images", JVal.jarr [JAtom.astr "https://x.test/a.jpg"])]])
      (splitOldUrls "https://x.test/nl/golfreizen/foo-tour") =
      some ⟨"https://x.test/nl/foo-tour", ["https://x.test/a.jpg"], none⟩ ∧
    mainRun
      [[("slug", JVal.jstr "/golfreizen/nl/foo-tour"),
        ("old_urls", JVal.jstr "https://x.test/nl/golfreizen/foo-tour")]]
      [[("link", JVal.jstr "https://x.test/nl/foo-tour"),
        ("images", JVal.jarr [JAtom.astr "https://x.test/a.jpg"])]] none =
      ⟨[[("slug", JVal.jstr "/golfreizen/nl/foo-tour"),
         ("old_urls", JVal.jstr "https://x.test/nl/golfreizen/foo-tour"),
         ("images", JVal.jarr [JAtom.astr "https://x.test/a.jpg"])]],
       1, 0, []⟩ := by
  refine ⟨?_, by decide, ?_⟩
  · intro u
    have hchar : deriveCandidatesFromOldUrl u = dedupKeepFirst
        [(normalizeForMatch u).full, (normalizeForMatch u).noQuery,
         replaceFirst (normalizeForMatch u).full "/nl/golfreis/" "/nl/",
         replaceFirst (normalizeForMatch u).full "/en/golfreis/" "/en/",
         replaceFirst (normalizeForMatch u).full "/golfreis/" "/",
         replaceFirst (normalizeForMatch u).noQuery "/nl/golfreis/" "/nl/",
         replaceFirst (normalizeForMatch u).noQuery "/en/golfreis/" "/en/",
         replaceFirst (normalizeForMatch u).noQuery "/golfreis/" "/"] := by
      simp only [deriveCandidatesFromOldUrl, dedupKeepFirst, List.foldl_cons,
        List.foldl_nil]
    refine ⟨hchar, ?_, ?_, ?_, ?_⟩
    · rw [hchar]
      unfold dedupKeepFirst
      rw [foldl_addUnique_mem]
      right
      simp
    · rw [hchar]
      unfold dedupKeepFirst
      rw [foldl_addUnique_mem]
      right
      simp
    · rw [hchar]
      exact foldl_addUnique_nodup _ [] List.nodup_nil
    · intro c hc
      rw [hchar] at hc
      unfold dedupKeepFirst at hc
      rw [foldl_addUnique_mem] at hc
      rcases hc with hc | hc
      · simp at hc
      · exact hc
  · decide

/-- C2 witness: the rewrite of a /nl/golfreis/ URL is among its derived
candidates, and every derived candidate is one of the eight forms. -/
theorem deriveCandidates_characterization_witness :
    (("https://x.test/nl/a?q" : String) ∈
      deriveCandidatesFromOldUrl "https://x.test/nl/golfreis/a?q") ∧
    ("https://x.test/nl/a?q" : String) ∈
      [(normalizeForMatch "https://x.test/nl/golfreis/a?q").full,
       (normalizeForMatch "https://x.test/nl/golfreis/a?q").noQuery,
       replaceFirst (normalizeForMatch "https://x.test/nl/golfreis/a?q").full
         "/nl/golfreis/" "/nl/",
       replaceFirst (normalizeForMatch "https://x.test/nl/golfreis/a?q").full
         "/en/golfreis/" "/en/",
       replaceFirst (normalizeForMatch "https://x.test/nl/golfreis/a?q").full
         "/golfreis/" "/",
       replaceFirst (normalizeForMatch "https://x.test/nl/golfreis/a?q").noQuery
         "/nl/golfreis/" "/nl/",
       replaceFirst (normalizeForMatch "https://x.test/nl/golfreis/a?q").noQuery
         "/en/golfreis/" "/en/",
       replaceFirst (normalizeForMatch "https://x.test/nl/golfreis/a?q").noQuery
         "/golfreis/" "/"] :=
  ⟨by decide,
   (deriveCandidates_characterization.1 "https://x.test/nl/golfreis/a?q").2.2.2.2
     "https://x.test/nl/a?q" (by decide)⟩

/-- The enriched array under a limit below the product count: the first
limit products mapped through enrichment, then the remainder verbatim. -/
theorem mainRun_limit_nat (products rawPages : List ProductRec) (k : Nat)
    (hk : k < products.length) :
    (mainRun products rawPages (some (k : Int))).enriched =
      (products.take k).map
        (enrichOne (buildByExact (buildPages rawPages)) (buildPages rawPages))
        ++ products.drop k := by
  simp only [mainRun]
  have h1 : (max 0 (k : Int)).toNat = k := by
    rw [max_eq_right (Int.natCast_nonneg k)]
    exact Int.toNat_natCast k
  rw [h1]
  rw [if_pos (by exact_mod_cast hk)]
  have h3 : jsSliceFrom products (k : Int) = products.drop k := by
    unfold jsSliceFrom
    rw [if_pos (Int.natCast_nonneg k)]
    rw [Int.toNat_natCast]
  rw [h3, foldl_mainStep_enriched]
  simp

/-- C6 (confirmed): with a limit k below the product count the output has
the full input length and order; every product at an index at least k
passes through identical; every product below k is replaced by its
enrichment, which always carries an images field and agrees with the
original on every field other than images and mapIframe. -/
theorem limit_boundary_frame (products rawPages : List ProductRec) (k : Nat)
    (hk : k < products.length) :
    (mainRun products rawPages (some (k : Int))).enriched.length =
      products.length ∧
    (∀ i, k ≤ i →
      (mainRun products rawPages (some (k : Int))).enriched[i]? =
        products[i]?) ∧
    (∀ i, i < k → ∃ p0, products[i]? = some p0 ∧
      (mainRun products rawPages (some (k : Int))).enriched[i]? =
        some (enrichOne (buildByExact (buildPages rawPages))
          (buildPages rawPages) p0) ∧
      (getField (enrichOne (buildByExact (buildPages rawPages))
        (buildPages rawPages) p0) "images").isSome ∧
      ∀ key, key ≠ "images" → key ≠ "mapIframe" →
        getField (enrichOne (buildByExact (buildPages rawPages))
          (buildPages rawPages) p0) key = getField p0 key) := by
  have hmr := mainRun_limit_nat products rawPages k hk
  have hlen : ((products.take k).map
      (enrichOne (buildByExact (buildPages rawPages))
        (buildPages rawPages))).length = k := by
    rw [List.length_map, List.length_take]
    omega
  refine ⟨?_, ?_, ?_⟩
  · rw [hmr, List.length_append, hlen, List.length_drop]
    omega
  · intro i hi
    rw [hmr, List.getElem?_append_right (by omega : _ ≤ i), hlen,
      List.getElem?_drop]
    congr 1
    omega
  · intro i hi
    have hin : i < products.length := lt_trans hi hk
    refine ⟨products[i], List.getElem?_eq_getElem hin, ?_,
      enrichOne_images _ _ _,
      fun key h1 h2 => enrichOne_frame _ _ _ key h1 h2⟩
    rw [hmr, List.getElem?_append_left (by omega), List.getElem?_map,
      List.getElem?_take, if_pos hi, List.getElem?_eq_getElem hin]
    rfl

/-- C6 witness. -/
theorem limit_boundary_frame_witness :
    1 < ([[("slug", JVal.jstr "a")], [("slug", JVal.jstr "b")]] :
      List ProductRec).length ∧
    (mainRun [[("slug", JVal.jstr "a")], [("slug", JVal.jstr "b")]] []
      (some (1 : Int))).enriched.length = 2 ∧
    (mainRun [[("slug", JVal.jstr "a")], [("slug", JVal.jstr "b")]] []
      (some (1 : Int))).enriched[1]? =
      ([[("slug", JVal.jstr "a")], [("slug", JVal.jstr "b")]] :
        List ProductRec)[1]? :=
  ⟨by decide,
   (limit_boundary_frame [[("slug", JVal.jstr "a")], [("slug", JVal.jstr "b")]]
     [] 1 (by decide)).1,
   (limit_boundary_frame [[("slug", JVal.jstr "a")], [("slug", JVal.jstr "b")]]
     [] 1 (by decide)).2.1 1 (le_refl 1)⟩

/-- C10 counterexample: with two products and limit -1 the run keeps only
the last product, so the output is not the input array. -/
theorem negative_limit_drops_products :
    mainRun [[("slug", JVal.jstr "a")], [("slug", JVal.jstr "b")]] []
      (some (-1 : Int)) =
      ⟨[[("slug", JVal.jstr "b")]], 0, 0, []⟩ ∧
    (mainRun [[("slug", JVal.jstr "a")], [("slug", JVal.jstr "b")]] []
      (some (-1 : Int))).enriched ≠
      [[("slug", JVal.jstr "a")], [("slug", JVal.jstr "b")]] := by
  refine ⟨by decide, ?_⟩
  decide

/-- C10 (corrected): a negative limit processes zero products and reports
matched 0, unmatched 0 with no diagnostics, and the output is written —
but it is products.slice(limit): the last min(-limit, length) products
unchanged, not the whole input. -/
theorem negative_limit_tail_slice (products rawPages : List ProductRec)
    (k : Int) (hk : k < 0) :
    mainRun products rawPages (some k) =
      ⟨jsSliceFrom products k, 0, 0, []⟩ ∧
    jsSliceFrom products k =
      products.drop (products.length - min products.length (-k).toNat) := by
  constructor
  · simp only [mainRun]
    have h1 : (max 0 k).toNat = 0 := by
      rw [max_eq_left (le_of_lt hk)]
      rfl
    rw [h1]
    rw [if_pos (lt_of_lt_of_le hk (Int.natCast_nonneg _))]
    simp
  · unfold jsSliceFrom
    rw [if_neg (by omega)]

/-- C10 witness. -/
theorem negative_limit_tail_slice_witness :
    (-1 : Int) < 0 ∧
    mainRun [[("slug", JVal.jstr "a")], [("slug", JVal.jstr "b")]] []
      (some (-1 : Int)) =
      ⟨jsSliceFrom [[("slug", JVal.jstr "a")], [("slug", JVal.jstr "b")]]
        (-1 : Int), 0, 0, []⟩ :=
  ⟨by decide,
   (negative_limit_tail_slice [[("slug", JVal.jstr "a")],
     [("slug", JVal.jstr "b")]] [] (-1) (by decide)).1⟩

end MergeProductMedia
